import Mathlib

/-!
Verification of the context-builder core (src/context_builder/app.py)
against its natural-language specification.

Strings are modelled as lists of characters (`Str`); the filesystem is
modelled as a nested tree of directories and files (`FSTree`) for the
tree-walking functions, and as a partial map from path strings to file
data (`Str -> Option FileData`) for the serializer.  Machine behaviour
of the Python standard library functions used by the program
(`fnmatch`, `os.path.normpath`, `os.path.join`, `os.path.basename`,
`os.path.relpath`, `os.path.splitext`, `str.splitlines`, `str.lower`
restricted to ASCII, UTF-8 decoding with `errors="replace"`) is
translated directly below.
-/

abbrev Str := List Char

/-- Coerces a Lean string literal to the character-list model. -/
def str (s : String) : Str := s.data

/-- Boolean prefix test on character lists (models `str.startswith`). -/
def strStartsWith : Str → Str → Bool
  | [], _ => true
  | _ :: _, [] => false
  | p :: ps, c :: cs => p == c && strStartsWith ps cs

/-- Lexicographic order on strings by code point (models Python string comparison). -/
def strLE : Str → Str → Bool
  | [], _ => true
  | _ :: _, [] => false
  | a :: as, b :: bs => if a < b then true else if b < a then false else strLE as bs

/-- ASCII lower-casing (the names compared by the program are ASCII;
Python `str.lower` agrees with `Char.toLower` on ASCII input). -/
def pyLower (s : Str) : Str := s.map Char.toLower

/-- Splits a string at every occurrence of the separator character,
keeping empty segments, as Python `str.split(sep)` does.  The result is
always non-empty. -/
def splitChar (sep : Char) : Str → List Str
  | [] => [[]]
  | c :: cs =>
    if c == sep then [] :: splitChar sep cs
    else
      match splitChar sep cs with
      | l :: ls => (c :: l) :: ls
      | [] => [[c]]

/-- Joins strings with a single separator character between consecutive
elements (models `sep.join(parts)`). -/
def intercalateChar (sep : Char) : List Str → Str
  | [] => []
  | [l] => l
  | l :: ls => l ++ sep :: intercalateChar sep ls

/-- Joins output lines with newlines, modelling the final `join` of the
result lines with a newline separator. -/
def joinNL (ls : List Str) : Str := intercalateChar '\n' ls

/-! ### fnmatch (Python fnmatch.fnmatch, POSIX case mapping) -/

/-- Scans for the closing bracket of a glob character class, returning the
class content and the remaining pattern. -/
def findClosingBracket : Str → Option (Str × Str)
  | [] => none
  | c :: rest =>
    if c == ']' then some ([], rest)
    else
      match findClosingBracket rest with
      | some (content, rest') => some (c :: content, rest')
      | none => none

/-- Parses a glob character class after the opening bracket: an optional
leading `!` negates, and a `]` in first content position is literal.
Returns `none` when the class is unterminated (the bracket is then a
literal character, as in Python fnmatch). -/
def splitBracket (s : Str) : Option (Bool × Str × Str) :=
  let neg := strStartsWith (str "!") s
  let s1 := if neg then s.tail else s
  let lit := strStartsWith (str "]") s1
  let s2 := if lit then s1.tail else s1
  match findClosingBracket s2 with
  | some (content, rest) => some (neg, (if lit then ']' :: content else content), rest)
  | none => none

/-- Membership test for a glob character class body: single characters
and inclusive ranges; an inverted range matches nothing, and a dash in
first or last position is literal. -/
def bracketMembers : Str → Char → Bool
  | [], _ => false
  | a :: '-' :: b :: rest, c => (a ≤ c && c ≤ b) || bracketMembers rest c
  | a :: rest, c => (a == c) || bracketMembers rest c

/-- Shell-glob matcher: the translation of Python `fnmatch` pattern
semantics (`*`, `?`, character classes, everything else literal; the
whole name must match).  The fuel argument makes the recursion
structural; every step strictly decreases `pat.length + s.length`, so
any fuel above that bound computes the untruncated semantics
(`fnmatchCore_fuel_irrelevant` below). -/
def fnmatchCore (fuel : Nat) (pat s : Str) : Bool :=
  match fuel with
  | 0 => false
  | fuel + 1 =>
    match pat with
    | [] => s.isEmpty
    | p :: ps =>
      if p = '*' then
        fnmatchCore fuel ps s ||
          (match s with
           | [] => false
           | _ :: s' => fnmatchCore fuel (p :: ps) s')
      else if p = '?' then
        (match s with
         | [] => false
         | _ :: s' => fnmatchCore fuel ps s')
      else if p = '[' then
        (match splitBracket ps with
         | none =>
           match s with
           | [] => false
           | c :: s' => (p == c) && fnmatchCore fuel ps s'
         | some (neg, content, ps') =>
           match s with
           | [] => false
           | c :: s' => (bracketMembers content c != neg) && fnmatchCore fuel ps' s')
      else
        (match s with
         | [] => false
         | c :: s' => (p == c) && fnmatchCore fuel ps s')

/-- Models `fnmatch.fnmatch(name, pattern)` (POSIX: `normcase` is the
identity). -/
def fnmatch (name pat : Str) : Bool :=
  fnmatchCore (pat.length + name.length + 1) pat name

/-! ### POSIX path helpers (os.path.*) -/

/-- Models `os.path.basename` on POSIX: the part after the last slash. -/
def basename (p : Str) : Str := (p.reverse.takeWhile (· != '/')).reverse

/-- Models `str.rstrip("/")`: removes all trailing slashes. -/
def rstripSlash (p : Str) : Str := (p.reverse.dropWhile (· == '/')).reverse

/-- Models `str.lstrip(".")`: removes all leading dots. -/
def lstripDots (p : Str) : Str := p.dropWhile (· == '.')

/-- Models `os.path.isabs` on POSIX. -/
def isabs (p : Str) : Bool := strStartsWith (str "/") p

/-- Models the two-argument `os.path.join` on POSIX. -/
def pyJoin (a b : Str) : Str :=
  if isabs b then b
  else if a = [] ∨ a.getLast? = some '/' then a ++ b
  else a ++ '/' :: b

/-- Models `os.path.normpath` on POSIX: collapses separators, removes
single dots, resolves double dots textually, preserves an exactly
double leading slash. -/
def normpath (p : Str) : Str :=
  if p = [] then str "."
  else
    let initialSlashes : Nat :=
      if strStartsWith (str "/") p then
        if strStartsWith (str "//") p ∧ ¬ strStartsWith (str "///") p then 2 else 1
      else 0
    let comps := splitChar '/' p
    let newComps := comps.foldl (fun acc comp =>
      if comp = [] ∨ comp = str "." then acc
      else if comp ≠ str ".." ∨ (initialSlashes = 0 ∧ acc = []) ∨
          (acc ≠ [] ∧ acc.getLast? = some (str "..")) then acc ++ [comp]
      else if acc ≠ [] then acc.dropLast
      else acc) []
    let joined := List.replicate initialSlashes '/' ++ intercalateChar '/' newComps
    if joined = [] then str "." else joined

/-- Models `os.path.abspath`, parameterised by the current working
directory (the process state `os.getcwd()` reads). -/
def abspath (cwd p : Str) : Str := normpath (if isabs p then p else pyJoin cwd p)

/-- Length of the longest common prefix of two lists of path components
(what `os.path.commonprefix` computes on a two-element list). -/
def commonPrefixLen : List Str → List Str → Nat
  | a :: as, b :: bs => if a = b then commonPrefixLen as bs + 1 else 0
  | _, _ => 0

/-- Models `os.path.relpath(path, start)` on POSIX (both arguments are
made absolute, split into non-empty components, and the result walks up
from `start` and down into `path`). -/
def relpath (cwd p start : Str) : Str :=
  let start_abs := abspath cwd start
  let path_abs := abspath cwd p
  let start_list := (splitChar '/' start_abs).filter (· != [])
  let path_list := (splitChar '/' path_abs).filter (· != [])
  let i := commonPrefixLen start_list path_list
  let rel_list := List.replicate (start_list.length - i) (str "..") ++ path_list.drop i
  if rel_list = [] then str "." else intercalateChar '/' rel_list

/-- Models `os.path.splitext(p)[1]`: the extension including its dot, or
empty when the basename has no dot preceded by a non-dot character. -/
def splitextExt (p : Str) : Str :=
  let base := basename p
  let extRevLen := (base.reverse.takeWhile (· != '.')).length
  if extRevLen = base.length then []
  else
    let pre := base.take (base.length - extRevLen - 1)
    if pre.all (· == '.') then [] else '.' :: base.drop (base.length - extRevLen)

/-! ### should_ignore (simplified gitignore matching from the source) -/

/-- The per-rule match test extracted from the loop body of
`should_ignore`.  The `isdir` oracle models the `os.path.isdir` system
call made on the normalized path.  `r` is the rule with any leading
negation marker already removed. -/
def ruleMatches (isdir : Str → Bool) (path r : Str) : Bool :=
  let basename_ := basename path
  let normalized := normpath path
  if r.getLast? = some '/' then
    isdir normalized && fnmatch basename_ (rstripSlash r)
  else if '/' ∈ r then
    fnmatch normalized ('*' :: r)
  else
    fnmatch basename_ r

/-- The loop body of `should_ignore`: one rule applied to the state
pair (ignored, negated_match). -/
def should_ignore_step (isdir : Str → Bool) (path : Str) (st : Bool × Bool) (rule : Str) :
    Bool × Bool :=
  if rule = [] ∨ strStartsWith (str "#") rule then st
  else
    let is_negating := strStartsWith (str "!") rule
    let r := if is_negating then rule.tail else rule
    if ruleMatches isdir path r then
      if is_negating then (false, true)
      else if st.2 = false then (true, st.2)
      else st
    else st

/-- Translation of `should_ignore(path, gitignore_rules)`: a fold of the
loop body over the rules, starting from (ignored, negated_match) both
false, returning the final `ignored`. -/
def should_ignore (isdir : Str → Bool) (path : Str) (gitignore_rules : List Str) : Bool :=
  (gitignore_rules.foldl (should_ignore_step isdir path) (false, false)).1

/-- Modelled from the spec: the last-match-wins evaluation the
specification describes for an ignore-rule set (later rules override
earlier ones, a matching negated rule clearing the verdict). -/
def lastMatchWins (isdir : Str → Bool) (path : Str) (gitignore_rules : List Str) : Bool :=
  gitignore_rules.foldl (fun verdict rule =>
    if rule = [] ∨ strStartsWith (str "#") rule then verdict
    else
      let is_negating := strStartsWith (str "!") rule
      let r := if is_negating then rule.tail else rule
      if ruleMatches isdir path r then !is_negating else verdict) false

/-- An active rule is one the loop does not skip: non-empty and not a
comment. -/
def activeRule (rule : Str) : Bool := !(rule = [] ∨ strStartsWith (str "#") rule : Bool)

/-- A rule matches positively when active, not negated, and its pattern
matches the path. -/
def posRuleMatch (isdir : Str → Bool) (path rule : Str) : Bool :=
  activeRule rule && !strStartsWith (str "!") rule && ruleMatches isdir path rule

/-- A rule matches negatively when active, negated, and its stripped
pattern matches the path. -/
def negRuleMatch (isdir : Str → Bool) (path rule : Str) : Bool :=
  activeRule rule && strStartsWith (str "!") rule && ruleMatches isdir path rule.tail

/-! ### str.splitlines and add_line_numbers -/

/-- Models Python `str.splitlines()`: splits at every Unicode line
boundary recognised by Python (LF, CR, CRLF as one, VT, FF, FS, GS, RS,
NEL, LS, PS), dropping the boundary characters, and not producing a
final empty line for a trailing boundary. -/
def pySplitlines : Str → List Str
  | [] => []
  | c :: cs =>
    if c = '\r' then
      match cs with
      | '\n' :: rest => [] :: pySplitlines rest
      | rest => [] :: pySplitlines rest
    else if c = '\n' ∨ c = '\x0b' ∨ c = '\x0c' ∨ c = '\x1c' ∨ c = '\x1d' ∨ c = '\x1e' ∨
        c = '\x85' ∨ c = '\u2028' ∨ c = '\u2029' then
      [] :: pySplitlines cs
    else
      match pySplitlines cs with
      | l :: ls => (c :: l) :: ls
      | [] => [[c]]

/-- Decimal representation of a natural number (Python `str(n)`). -/
def natToStr (n : Nat) : Str := (toString n).data

/-- Models the f-string left justification `{v:<{w}}`: pads on the right
with spaces up to width `w`. -/
def leftJustify (s : Str) (w : Nat) : Str := s ++ List.replicate (w - s.length) ' '

/-- Translation of `add_line_numbers(content)`: splits into lines,
formats each as the left-justified 1-based index padded to the width of
the total line count, a space-pipe-space delimiter, and the line, then
joins with newlines.  Empty input (no lines) yields the empty string. -/
def add_line_numbers (content : Str) : Str :=
  let lines := pySplitlines content
  if lines = [] then []
  else
    let padding := (natToStr lines.length).length
    joinNL (lines.enum.map fun il =>
      leftJustify (natToStr (il.1 + 1)) padding ++ str " | " ++ il.2)

/-- Modelled from the spec: the claimed formatting, identical to
`add_line_numbers` except that each 1-based index is left-padded
(right-justified) to the width of the total line count. -/
def spec_add_line_numbers (content : Str) : Str :=
  let lines := pySplitlines content
  if lines = [] then []
  else
    let padding := (natToStr lines.length).length
    joinNL (lines.enum.map fun il =>
      List.replicate (padding - (natToStr (il.1 + 1)).length) ' ' ++ natToStr (il.1 + 1) ++
        str " | " ++ il.2)

/-! ### estimate_tokens -/

/-- Translation of `estimate_tokens`.  The optional argument models the
tiktoken encoder: `none` when the library is unavailable or the
encoding for the model is not found, and `some f` with `f text = none`
when the encoder raises.  In every failure case the function falls back
to the character approximation `len(text) // 4`. -/
def estimate_tokens (enc : Option (Str → Option Nat)) (text : Str) : Nat :=
  match enc with
  | some f =>
    match f text with
    | some n => n
    | none => text.length / 4
  | none => text.length / 4

/-- Key order used by the Python sorts: tuple comparison of (bool, string)
with False before True, then lexicographic. -/
def pyKeyLE (a b : Bool × Str) : Bool :=
  if a.1 = b.1 then strLE a.2 b.2 else (!a.1 && b.1)

/-! ### Stable sorting (Python list.sort and sorted) -/

/-- Python sorts are stable comparison sorts; any stable sort with the
same (total, transitive) key order produces the same list, so sorting is
modelled by insertion sort, which is stable and structurally recursive. -/
def pySorted (l : List Str) : List Str :=
  List.insertionSort (fun a b => strLE a b = true) l

/-! ### File data, binary probe, and UTF-8 decoding with replacement -/

/-- The observable state of one file on disk: whether the binary-probe
read succeeds, whether the text-mode open and read succeeds (a separate
system call, so it may fail independently of the probe), the message of
the exception raised by a failing text read, and the raw bytes. -/
structure FileData where
  probe_ok : Bool
  read_ok : Bool
  err_msg : Str
  bytes : List Nat

/-- Bytes read by the binary probe (`BINARY_CHECK_CHUNK_SIZE`). -/
def BINARY_CHECK_CHUNK_SIZE : Nat := 1024

/-- Core of `is_likely_binary_file`: a null byte in the first 1024
bytes, or a failing probe read, classifies the file as binary. -/
def is_likely_binary_data (fd : FileData) : Bool :=
  if fd.probe_ok then (fd.bytes.take BINARY_CHECK_CHUNK_SIZE).contains 0 else true

/-- Translation of `is_likely_binary_file(filepath)` over the filesystem
map: a file that cannot even be opened is treated as binary. -/
def is_likely_binary_file (fs : Str → Option FileData) (filepath : Str) : Bool :=
  match fs filepath with
  | none => true
  | some fd => is_likely_binary_data fd

/-- The Unicode replacement character U+FFFD. -/
def replacementChar : Char := Char.ofNat 0xFFFD

/-- UTF-8 continuation byte test. -/
def isUtf8Cont (b : Nat) : Bool := 0x80 ≤ b && b ≤ 0xBF

/-- Decoder state: `none` between sequences, or
`some (acc, needed, lo, hi)` inside a multi-byte sequence with `needed`
continuation bytes still expected, the next byte constrained to
`[lo, hi]` (CPython restricts the second byte per lead byte, later
continuation bytes to `[0x80, 0xBF]`). -/
abbrev Utf8State := Option (Nat × Nat × Nat × Nat)

/-- One step of the decoder on a byte in initial state: an ASCII byte is
emitted, a valid lead byte opens a sequence, anything else is one
replacement character. -/
def utf8StepInit (b : Nat) : List Char × Utf8State :=
  if b ≤ 0x7F then ([Char.ofNat b], none)
  else if 0xC2 ≤ b && b ≤ 0xDF then ([], some (b - 0xC0, 1, 0x80, 0xBF))
  else if 0xE0 ≤ b && b ≤ 0xEF then
    ([], some (b - 0xE0, 2, (if b = 0xE0 then 0xA0 else 0x80), (if b = 0xED then 0x9F else 0xBF)))
  else if 0xF0 ≤ b && b ≤ 0xF4 then
    ([], some (b - 0xF0, 3, (if b = 0xF0 then 0x90 else 0x80), (if b = 0xF4 then 0x8F else 0xBF)))
  else ([replacementChar], none)

/-- One step of the decoder: inside a sequence, a byte in range extends
or completes it; a byte out of range ends the maximal ill-formed
subsequence with one replacement character and is reprocessed as an
initial byte, exactly as CPython with `errors="replace"`. -/
def utf8Step (st : Utf8State) (b : Nat) : List Char × Utf8State :=
  match st with
  | none => utf8StepInit b
  | some (acc, needed, lo, hi) =>
    if lo ≤ b && b ≤ hi then
      let acc2 := acc * 64 + (b - 0x80)
      if needed = 1 then ([Char.ofNat acc2], none)
      else ([], some (acc2, needed - 1, 0x80, 0xBF))
    else
      let r := utf8StepInit b
      (replacementChar :: r.1, r.2)

/-- Runs the decoder over the bytes; a dangling incomplete sequence at
end of input yields one replacement character. -/
def utf8Run (st : Utf8State) : List Nat → List Char
  | [] =>
    (match st with
     | none => []
     | some _ => [replacementChar])
  | b :: rest =>
    let r := utf8Step st b
    r.1 ++ utf8Run r.2 rest

/-- UTF-8 decoding with `errors="replace"` as CPython performs it: each
maximal ill-formed subsequence is replaced by one U+FFFD, resuming at
the first byte that breaks a sequence.  Total: decoding never fails. -/
def utf8DecodeReplace (bytes : List Nat) : List Char := utf8Run none bytes

/-- Universal-newline translation of a text-mode read: `open(path, "r",
...)` with the default `newline=None` translates every `\r\n` pair and
every lone `\r` of the decoded stream into one `\n` before returning it
to the caller. -/
def universalNewlines : Str → Str
  | [] => []
  | '\r' :: '\n' :: rest => '\n' :: universalNewlines rest
  | '\r' :: rest => '\n' :: universalNewlines rest
  | c :: rest => c :: universalNewlines rest

/-- Replaces every occurrence of one character by a string (the uses of
`str.replace` in `escape_xml` all have single-character needles). -/
def replaceChar (c : Char) (rep : Str) (s : Str) : Str :=
  s.flatMap fun x => if x = c then rep else [x]

/-- Translation of the nested `escape_xml` helper: ampersand first, then
angle brackets. -/
def escape_xml (text : Str) : Str :=
  replaceChar '>' (str "&gt;") (replaceChar '<' (str "&lt;") (replaceChar '&' (str "&amp;") text))

/-- The EXT_TO_LANG table from the source, in declaration order. -/
def EXT_TO_LANG : List (Str × Str) :=
  [(str "py", str "python"), (str "c", str "c"), (str "cpp", str "cpp"),
   (str "java", str "java"), (str "js", str "javascript"), (str "ts", str "typescript"),
   (str "tsx", str "typescript"), (str "html", str "html"), (str "css", str "css"),
   (str "xml", str "xml"), (str "json", str "json"), (str "yaml", str "yaml"),
   (str "yml", str "yaml"), (str "sh", str "bash"), (str "rb", str "ruby"),
   (str "kt", str "kotlin"), (str "go", str "go"), (str "php", str "php"),
   (str "swift", str "swift"), (str "sql", str "sql")]

/-- The rel_path computation of generate_output: the file path is made
relative to the base directory exactly when its absolute path starts
with the absolute base directory followed by the separator; a falsy
(absent or empty) base directory leaves the path as supplied. -/
def compute_rel_path (cwd : Str) (base_dir : Option Str) (file_path : Str) : Str :=
  let abs_base_dir : Option Str :=
    match base_dir with
    | some b => if b = [] then none else some (abspath cwd b)
    | none => none
  let abs_file_path := abspath cwd file_path
  match abs_base_dir with
  | some ab =>
    if strStartsWith (ab ++ str "/") abs_file_path then relpath cwd abs_file_path ab
    else file_path
  | none => file_path

/-! ### Filesystem tree and directory scanning -/

/-- Snapshot of a directory subtree: a file with its data, or a
directory with its listing (`listable = false` models `os.listdir`
raising PermissionError or FileNotFoundError). -/
inductive FSTree where
  | file (fd : FileData)
  | dir (listable : Bool) (children : List (Str × FSTree))

/-- Directory test on the snapshot (what `os.path.isdir` reports for an
existing entry). -/
def FSTree.isDir : FSTree → Bool
  | .dir _ _ => true
  | .file _ => false

/-- The tree produced by the scan: name, directory flag, and the ordered
children (the TreeNode of the design, which the checkbox model items
realise). -/
inductive TreeNode where
  | mk (name : Str) (isDir : Bool) (children : List TreeNode)

def TreeNode.name : TreeNode → Str
  | .mk n _ _ => n

def TreeNode.isDir : TreeNode → Bool
  | .mk _ d _ => d

def TreeNode.children : TreeNode → List TreeNode
  | .mk _ _ cs => cs

mutual
/-- Structural size of a snapshot tree, used as recursion fuel. -/
def FSTree.size : FSTree → Nat
  | .file _ => 1
  | .dir _ cs => 1 + FSTree.sizeChildren cs
/-- Structural size of a directory listing. -/
def FSTree.sizeChildren : List (Str × FSTree) → Nat
  | [] => 0
  | e :: rest => 1 + FSTree.size e.2 + FSTree.sizeChildren rest
end

mutual
/-- Structural size of a scanned node, used as recursion fuel. -/
def TreeNode.size : TreeNode → Nat
  | .mk _ _ cs => 1 + TreeNode.sizeNodes cs
/-- Structural size of a scanned forest. -/
def TreeNode.sizeNodes : List TreeNode → Nat
  | [] => 0
  | n :: rest => 1 + TreeNode.size n + TreeNode.sizeNodes rest
end

/-- The sort key comparison of the tree walkers on raw entries:
`(not is_dir, name.lower())` tuples compared as Python does. -/
def entryKeyLE (e1 e2 : Str × FSTree) : Bool :=
  pyKeyLE (!e1.2.isDir, pyLower e1.1) (!e2.2.isDir, pyLower e2.1)

/-- The same sort key comparison on scanned nodes. -/
def nodeKeyLE (a b : TreeNode) : Bool :=
  pyKeyLE (!a.isDir, pyLower a.name) (!b.isDir, pyLower b.name)

/-- Translation of `generate_project_tree(path, prefix, ignore_hidden,
gitignore_rules)` over the snapshot: an unlistable directory yields no
lines; entries are filtered (hidden, gitignore), sorted directories
first then case-insensitive name, and rendered with the box-drawing
connectors, recursing into directories with the extended prefix.  The
fuel argument makes the recursion structural; every recursive call is
on a strict subtree, so any fuel bounded below by `sizeOf t` computes
the untruncated semantics (`generate_project_tree_fuel_irrelevant`). -/
def generate_project_tree_fuel (isdir : Str → Bool) (ignore_hidden : Bool)
    (gitignore_rules : List Str) : Nat → FSTree → Str → Str → List Str
  | 0, _, _, _ => []
  | fuel + 1, t, path, pfx =>
    match t with
    | .file _ => []
    | .dir false _ => []
    | .dir true children =>
      let filtered := children.filter fun e =>
        !(ignore_hidden && strStartsWith (str ".") e.1) &&
          !(!gitignore_rules.isEmpty && should_ignore isdir (pyJoin path e.1) gitignore_rules)
      let sorted_entries := List.insertionSort (fun e1 e2 => entryKeyLE e1 e2 = true) filtered
      let n := sorted_entries.length
      sorted_entries.enum.flatMap fun ie =>
        let is_last := ie.1 = n - 1
        let connector := if is_last then str "└── " else str "├── "
        (pfx ++ connector ++ ie.2.1) ::
          (if ie.2.2.isDir then
            generate_project_tree_fuel isdir ignore_hidden gitignore_rules fuel ie.2.2
              (pyJoin path ie.2.1) (pfx ++ (if is_last then str "    " else str "│   "))
          else [])

/-- Entry point of the tree renderer at sufficient fuel. -/
def generate_project_tree (isdir : Str → Bool) (ignore_hidden : Bool)
    (gitignore_rules : List Str) (t : FSTree) (path : Str) (pfx : Str) : List Str :=
  generate_project_tree_fuel isdir ignore_hidden gitignore_rules (FSTree.size t) t path pfx

/-- Translation of `FileTreeModel._load_directory_recursive`: entries of
a listable directory are filtered (hidden, gitignore), likely-binary
files are skipped entirely, directories are loaded recursively, and the
surviving children are sorted directories first then case-insensitive
name.  An unlistable directory contributes no children.  Structural in
the fuel; any fuel bounded below by `sizeOf t` computes the untruncated
semantics. -/
def load_directory_recursive_fuel (isdir : Str → Bool)
    (ignore_hidden use_gitignore : Bool) (gitignore_rules : List Str) :
    Nat → FSTree → Str → List TreeNode
  | 0, _, _ => []
  | fuel + 1, t, path =>
    match t with
    | .file _ => []
    | .dir false _ => []
    | .dir true children =>
      let processed := children.filterMap fun e =>
        if ignore_hidden && strStartsWith (str ".") e.1 then none
        else if use_gitignore && should_ignore isdir (pyJoin path e.1) gitignore_rules then none
        else
          match e.2 with
          | .file fd =>
            if is_likely_binary_data fd then none
            else some (TreeNode.mk e.1 false [])
          | .dir b cs =>
            some (TreeNode.mk e.1 true
              (load_directory_recursive_fuel isdir ignore_hidden use_gitignore gitignore_rules
                fuel (.dir b cs) (pyJoin path e.1)))
      List.insertionSort (fun n1 n2 => nodeKeyLE n1 n2 = true) processed

/-- Entry point of the scanner at sufficient fuel. -/
def load_directory_recursive (isdir : Str → Bool) (ignore_hidden use_gitignore : Bool)
    (gitignore_rules : List Str) (t : FSTree) (path : Str) : List TreeNode :=
  load_directory_recursive_fuel isdir ignore_hidden use_gitignore gitignore_rules
    (FSTree.size t) t path

/-- Modelled from the spec (TreeRenderer): renders an already-filtered
tree; each child yields one line of prefix, connector (corner for the
last sibling, tee otherwise), and name, and a directory child is
rendered below it with the prefix extended by four spaces after a last
sibling or a pipe and three spaces otherwise. -/
def renderLines_fuel : Nat → List TreeNode → Str → List Str
  | 0, _, _ => []
  | fuel + 1, nodes, pfx =>
    let n := nodes.length
    nodes.enum.flatMap fun ie =>
      let is_last := ie.1 = n - 1
      (pfx ++ (if is_last then str "└── " else str "├── ") ++ ie.2.name) ::
        (if ie.2.isDir then
          renderLines_fuel fuel ie.2.children
            (pfx ++ (if is_last then str "    " else str "│   "))
        else [])

/-- Entry point of the specification renderer at sufficient fuel. -/
def renderLines (nodes : List TreeNode) (pfx : Str) : List Str :=
  renderLines_fuel (TreeNode.sizeNodes nodes) nodes pfx

/-- Modelled from the spec (DirectoryScanner as used by the renderer):
the filtered tree that `generate_project_tree` renders, built with the
same hidden and gitignore filters and the same ordering, without the
binary exclusion (which `generate_project_tree` does not perform). -/
def scanTreeNB_fuel (isdir : Str → Bool) (ignore_hidden : Bool)
    (gitignore_rules : List Str) : Nat → FSTree → Str → List TreeNode
  | 0, _, _ => []
  | fuel + 1, t, path =>
    match t with
    | .file _ => []
    | .dir false _ => []
    | .dir true children =>
      let filtered := children.filter fun e =>
        !(ignore_hidden && strStartsWith (str ".") e.1) &&
          !(!gitignore_rules.isEmpty && should_ignore isdir (pyJoin path e.1) gitignore_rules)
      let mapped := filtered.map fun e =>
        TreeNode.mk e.1 e.2.isDir
          (scanTreeNB_fuel isdir ignore_hidden gitignore_rules fuel e.2 (pyJoin path e.1))
      List.insertionSort (fun n1 n2 => nodeKeyLE n1 n2 = true) mapped

/-- Entry point of the specification scan at sufficient fuel. -/
def scanTreeNB (isdir : Str → Bool) (ignore_hidden : Bool) (gitignore_rules : List Str)
    (t : FSTree) (path : Str) : List TreeNode :=
  scanTreeNB_fuel isdir ignore_hidden gitignore_rules (FSTree.size t) t path

/-- Every level of a scanned tree is sorted directories-first then
case-insensitive name. -/
inductive AllLevelsSorted : List TreeNode → Prop where
  | mk : ∀ (ns : List TreeNode), List.Chain' (nodeKeyLE · · = true) ns →
      (∀ n ∈ ns, AllLevelsSorted n.children) → AllLevelsSorted ns

/-- Follows a path of names through the snapshot, taking at each level
the first child with the given name (unique under `nodupAt`). -/
def fsGet? : List Str → List (Str × FSTree) → Option FSTree
  | [], _ => none
  | [nm], cs => (cs.find? fun e => e.1 == nm).map Prod.snd
  | nm :: rest, cs =>
    match (cs.find? fun e => e.1 == nm).map Prod.snd with
    | some (.dir _ cs') => fsGet? rest cs'
    | _ => none

/-- Whether the scanned tree contains a node along the given name path. -/
def nodeHasPath : List Str → List TreeNode → Bool
  | [], _ => false
  | [nm], ns => ns.any fun n => n.name == nm
  | nm :: rest, ns => ns.any fun n => n.name == nm && nodeHasPath rest n.children

/-- Sibling names are unique at every level along the given path (a
filesystem always satisfies this; the tree type does not force it). -/
def nodupAt : List Str → List (Str × FSTree) → Bool
  | [], _ => true
  | [_], cs => decide (cs.map Prod.fst).Nodup
  | nm :: rest, cs =>
    decide (cs.map Prod.fst).Nodup &&
      (match (cs.find? fun e => e.1 == nm).map Prod.snd with
       | some (.dir _ cs') => nodupAt rest cs'
       | _ => true)

/-! ### The serializer (ContextBuilder.generate_output) -/

/-- The lines contributed by one selected path in the body loop of
`generate_output`: a likely-binary file yields an inline skip warning
(an empty line in XML format), a file whose text read raises yields an
inline error warning (an empty line in XML format), and a readable text
file yields its formatted block, with UTF-8 replacement decoding,
universal-newline translation, and optional line numbering. -/
def fileBlock (fs : Str → Option FileData) (output_format : Str)
    (include_line_numbers : Bool) (base_dir : Option Str) (cwd : Str)
    (file_path : Str) : List Str :=
  if is_likely_binary_file fs file_path then
    if output_format = str "xml" then [[]]
    else [str "# Skipping likely binary file: " ++ basename file_path]
  else
    match fs file_path with
    | none => []
    | some fd =>
      if fd.read_ok then
        let rel_path := compute_rel_path cwd base_dir file_path
        let content0 := universalNewlines (utf8DecodeReplace fd.bytes)
        let content := if include_line_numbers then add_line_numbers content0 else content0
        if output_format = str "plaintext" then
          [str "--- File: " ++ rel_path ++ str " ---", content, str "--- End File ---", []]
        else if output_format = str "xml" then
          let file_ext := lstripDots (splitextExt rel_path)
          [str "<file path=\"" ++ escape_xml rel_path ++ str "\" type=\"" ++
              escape_xml file_ext ++ str "\">",
           escape_xml content, str "</file>"]
        else if output_format = str "markdown" then
          let lang := (EXT_TO_LANG.lookup (pyLower ((splitChar '.' file_path).getLast?.getD []))).getD []
          [str "**File:** `" ++ rel_path ++ str "`", str "```" ++ lang, content, str "```", []]
        else []
      else
        if output_format = str "xml" then [[]]
        else [str "# Warning: Error processing file '" ++ basename file_path ++ str "': " ++
          fd.err_msg]

/-- Translation of `ContextBuilder.generate_output`.  The filesystem is
passed as the path map `fs` (per-file reads) together with the snapshot
`treeFS` rooted at the base directory (walked by
`generate_project_tree` when the project tree is requested).  The
remaining parameters mirror the method arguments and the widget state it
reads: `use_gitignore`/`gitignore_rules` from the model and
`hidden_checked` from the hidden-files checkbox. -/
def generate_output (fs : Str → Option FileData) (treeFS : FSTree) (isdir : Str → Bool)
    (cwd : Str) (file_paths : List Str) (output_format : Str)
    (include_line_numbers include_project_tree : Bool) (base_dir : Option Str)
    (use_gitignore : Bool) (gitignore_rules : List Str) (hidden_checked : Bool) : Str :=
  let base_truthy : Bool := match base_dir with
    | some b => !(b == [])
    | none => false
  let header := if output_format = str "xml" then [str "<context>"] else []
  let treeSection :=
    if include_project_tree && base_truthy then
      let bdir := base_dir.getD []
      let tree_gitignore_rules := if use_gitignore then gitignore_rules else []
      let tree_ignore_hidden := !hidden_checked
      let tree_lines := generate_project_tree isdir tree_ignore_hidden tree_gitignore_rules
        treeFS bdir []
      let full_tree_text := basename bdir ++ '\n' :: joinNL tree_lines
      (if output_format = str "xml" then
        [str "<projectTree>", escape_xml full_tree_text, str "</projectTree>"]
      else if output_format = str "markdown" then
        [str "**Project Structure:**", str "```", full_tree_text, str "```"]
      else
        [str "--- Project Structure ---", full_tree_text, str "--- End Structure ---"]) ++ [[]]
    else []
  let filesSection :=
    if file_paths ≠ [] then
      (if output_format = str "xml" then [str "<files>"]
       else if output_format = str "markdown" ∨ output_format = str "plaintext" then
        [str "--- Files ---", []]
       else []) ++
      (pySorted file_paths).flatMap
        (fileBlock fs output_format include_line_numbers base_dir cwd) ++
      (if output_format = str "xml" then [str "</files>"] else [])
    else []
  let footer := if output_format = str "xml" then [str "</context>"] else []
  joinNL (header ++ treeSection ++ filesSection ++ footer)

/-- Substring test used to state the absence of warning markers. -/
def strContains (needle hay : Str) : Bool :=
  hay.tails.any fun t => strStartsWith needle t

/-- A likely-binary file (a null byte among its first bytes). -/
def fdBin : FileData := ⟨true, true, [], [0, 1]⟩

/-- A one-binary-file filesystem used as concrete input. -/
def fsBin : Str → Option FileData :=
  fun p => if p = str "/b/x.bin" then some fdBin else none

/-- A text file whose text-mode read raises an OSError. -/
def fdErr : FileData := ⟨true, false, str "boom", [0x61]⟩

/-- A one-erroring-file filesystem used as concrete input. -/
def fsErr : Str → Option FileData :=
  fun p => if p = str "/b/e.txt" then some fdErr else none

/-- A small readable text file and its one-file filesystem. -/
def fdTxt : FileData := ⟨true, true, [], [0x68, 0x69]⟩

/-- A one-text-file filesystem used as concrete input. -/
def fsTxt : Str → Option FileData :=
  fun p => if p = str "/base/b.txt" then some fdTxt else none

/-- A readable text file whose bytes hold a CRLF pair and a lone CR
(the bytes of "a\r\nb\rc"). -/
def fdCR : FileData := ⟨true, true, [], [0x61, 0x0D, 0x0A, 0x62, 0x0D, 0x63]⟩

/-- A filesystem holding only the CR-bearing file, used as concrete
input. -/
def fsCR : Str → Option FileData :=
  fun p => if p = str "/base/c.txt" then some fdCR else none

/-! ### Theorems -/

theorem findClosingBracket_length :
    ∀ (s content rest : Str), findClosingBracket s = some (content, rest) →
      rest.length < s.length := by
  intro s
  induction s with
  | nil => intro content rest h; simp [findClosingBracket] at h
  | cons c cs ih =>
    intro content rest h
    unfold findClosingBracket at h
    split at h
    · rw [Option.some.injEq, Prod.mk.injEq] at h
      obtain ⟨h1, h2⟩ := h
      subst h2
      simp
    · cases hfc : findClosingBracket cs with
      | none => rw [hfc] at h; exact absurd h (by simp)
      | some p =>
        rw [hfc] at h
        obtain ⟨pc, pr⟩ := p
        rw [Option.some.injEq, Prod.mk.injEq] at h
        obtain ⟨h1, h2⟩ := h
        have := ih pc pr hfc
        rw [← h2]
        simp
        omega

theorem splitBracket_length (s : Str) (neg : Bool) (content rest : Str)
    (h : splitBracket s = some (neg, content, rest)) : rest.length < s.length := by
  unfold splitBracket at h
  dsimp only at h
  set s1 := if strStartsWith (str "!") s then s.tail else s with hs1
  set s2 := if strStartsWith (str "]") s1 then s1.tail else s1 with hs2
  have h1 : s1.length ≤ s.length := by
    rw [hs1]; split <;> simp [List.length_tail]
  have h2 : s2.length ≤ s1.length := by
    rw [hs2]; split <;> simp [List.length_tail]
  cases hfc : findClosingBracket s2 with
  | none => rw [hfc] at h; exact absurd h (by simp)
  | some p =>
    obtain ⟨pc, pr⟩ := p
    rw [hfc] at h
    have hlt := findClosingBracket_length s2 pc pr hfc
    rw [Option.some.injEq, Prod.mk.injEq, Prod.mk.injEq] at h
    obtain ⟨hA, hB, hC⟩ := h
    subst hC
    omega

/-- The fuel argument of `fnmatchCore` is irrelevant as soon as it
exceeds `pat.length + s.length`, so `fnmatch` computes the fixpoint
semantics of the glob matcher. -/
theorem fnmatchCore_fuel_irrelevant :
    ∀ (f1 f2 : Nat) (pat s : Str), pat.length + s.length < f1 →
      pat.length + s.length < f2 → fnmatchCore f1 pat s = fnmatchCore f2 pat s := by
  intro f1
  induction f1 with
  | zero => intro f2 pat s h1 _; omega
  | succ f1 ih =>
    intro f2 pat s h1 h2
    match f2 with
    | 0 => omega
    | f2 + 1 =>
      show fnmatchCore (f1 + 1) pat s = fnmatchCore (f2 + 1) pat s
      cases pat with
      | nil => rfl
      | cons p ps =>
        simp only [fnmatchCore]
        simp only [List.length_cons] at h1 h2
        by_cases hstar : p = '*'
        · subst hstar
          have e1 : fnmatchCore f1 ps s = fnmatchCore f2 ps s := by
            apply ih <;> omega
          cases s with
          | nil => simp [e1]
          | cons c s' =>
            simp only [List.length_cons] at h1 h2
            have e2 : fnmatchCore f1 ('*' :: ps) s' = fnmatchCore f2 ('*' :: ps) s' := by
              apply ih <;> simp <;> omega
            simp [e1, e2]
        · by_cases hq : p = '?'
          · subst hq
            cases s with
            | nil => simp
            | cons c s' =>
              simp only [List.length_cons] at h1 h2
              have e2 : fnmatchCore f1 ps s' = fnmatchCore f2 ps s' := by
                apply ih <;> omega
              simp [e2]
          · by_cases hb : p = '['
            · subst hb
              cases hsb : splitBracket ps with
              | none =>
                cases s with
                | nil => simp [hsb]
                | cons c s' =>
                  simp only [List.length_cons] at h1 h2
                  have e2 : fnmatchCore f1 ps s' = fnmatchCore f2 ps s' := by
                    apply ih <;> omega
                  simp [hsb, e2]
              | some pr =>
                obtain ⟨neg, content, ps'⟩ := pr
                have hlen := splitBracket_length ps neg content ps' hsb
                cases s with
                | nil => simp [hsb]
                | cons c s' =>
                  simp only [List.length_cons] at h1 h2
                  have e2 : fnmatchCore f1 ps' s' = fnmatchCore f2 ps' s' := by
                    apply ih <;> omega
                  simp [hsb, e2]
            · cases s with
              | nil => simp [hstar, hq, hb]
              | cons c s' =>
                simp only [List.length_cons] at h1 h2
                have e2 : fnmatchCore f1 ps s' = fnmatchCore f2 ps s' := by
                  apply ih <;> omega
                simp [hstar, hq, hb, e2]

theorem should_ignore_foldl (isdir : Str → Bool) (path : Str) :
    ∀ (rules : List Str) (ig nm : Bool),
      (rules.foldl (should_ignore_step isdir path) (ig, nm)).1 =
        (if nm then ig && !rules.any (negRuleMatch isdir path)
         else (ig || rules.any (posRuleMatch isdir path)) &&
           !rules.any (negRuleMatch isdir path)) := by
  intro rules
  induction rules with
  | nil => intro ig nm; cases nm <;> simp
  | cons r rs ih =>
    intro ig nm
    simp only [List.foldl_cons, List.any_cons]
    by_cases hact : (r = [] ∨ strStartsWith (str "#") r)
    · have hstep : should_ignore_step isdir path (ig, nm) r = (ig, nm) := by
        simp [should_ignore_step, hact]
      have hpos : posRuleMatch isdir path r = false := by
        simp [posRuleMatch, activeRule, hact]
      have hneg : negRuleMatch isdir path r = false := by
        simp [negRuleMatch, activeRule, hact]
      rw [hstep, ih, hpos, hneg]
      simp
    · have hactive : activeRule r = true := by simp [activeRule, hact]
      by_cases hng : strStartsWith (str "!") r = true
      · by_cases hm : ruleMatches isdir path r.tail = true
        · have hstep : should_ignore_step isdir path (ig, nm) r = (false, true) := by
            simp [should_ignore_step, hact, hng, hm]
          have hneg : negRuleMatch isdir path r = true := by
            simp [negRuleMatch, hactive, hng, hm]
          rw [hstep, ih, hneg]
          simp
        · have hstep : should_ignore_step isdir path (ig, nm) r = (ig, nm) := by
            simp [should_ignore_step, hact, hng]
            intro h
            exact absurd h hm
          have hpos : posRuleMatch isdir path r = false := by
            simp [posRuleMatch, hng]
          have hneg : negRuleMatch isdir path r = false := by
            simp [negRuleMatch, hm]
          rw [hstep, ih, hpos, hneg]
          simp
      · have hng' : strStartsWith (str "!") r = false := by
          simp at hng; exact hng
        by_cases hm : ruleMatches isdir path r = true
        · have hpos : posRuleMatch isdir path r = true := by
            simp [posRuleMatch, hactive, hng', hm]
          have hneg : negRuleMatch isdir path r = false := by
            simp [negRuleMatch, hng']
          rw [hpos, hneg]
          cases nm with
          | false =>
            have hstep : should_ignore_step isdir path (ig, false) r = (true, false) := by
              simp [should_ignore_step, hact, hng', hm]
            rw [hstep, ih]
            simp
          | true =>
            have hstep : should_ignore_step isdir path (ig, true) r = (ig, true) := by
              simp [should_ignore_step, hact, hng', hm]
            rw [hstep, ih]
            simp
        · have hstep : should_ignore_step isdir path (ig, nm) r = (ig, nm) := by
            simp [should_ignore_step, hact, hng']
            intro h
            exact absurd h hm
          have hpos : posRuleMatch isdir path r = false := by
            simp [posRuleMatch, hm]
          have hneg : negRuleMatch isdir path r = false := by
            simp [negRuleMatch, hng']
          rw [hstep, ih, hpos, hneg]
          simp

/-- C1 counterexample: the verdict is not last-match-wins.  For the path
"a" and the ruleset ["!a", "a"] the last matching rule is the
non-negated "a", whose effect the specification says is "ignored", yet
`should_ignore` returns "not ignored": once a negated rule has matched,
later non-negated matches are not applied. -/
theorem should_ignore_last_match_counterexample :
    should_ignore (fun _ => false) (str "a") [str "!a", str "a"] = false ∧
    lastMatchWins (fun _ => false) (str "a") [str "!a", str "a"] = true :=
  ⟨by decide, by decide⟩

/-- C1 (amended): ignore-rule evaluation proceeds in file order, but a
matching negated rule clears "ignored" permanently: the final verdict is
"ignored" exactly when some active non-negated rule matches and no
active negated rule matches.  In particular, for any path matching an
active non-negated pattern A, ruleset [A] yields "ignored" and ruleset
[A, !A] yields "not ignored". -/
theorem should_ignore_characterization :
    (∀ (isdir : Str → Bool) (path : Str) (rules : List Str),
        should_ignore isdir path rules =
          (rules.any (posRuleMatch isdir path) && !rules.any (negRuleMatch isdir path)))
    ∧ (∀ (isdir : Str → Bool) (path A : Str),
        activeRule A = true → strStartsWith (str "!") A = false →
          ruleMatches isdir path A = true → should_ignore isdir path [A] = true)
    ∧ (∀ (isdir : Str → Bool) (path A : Str),
        activeRule A = true → strStartsWith (str "!") A = false →
          ruleMatches isdir path A = true →
          should_ignore isdir path [A, '!' :: A] = false) := by
  have hchar : ∀ (isdir : Str → Bool) (path : Str) (rules : List Str),
      should_ignore isdir path rules =
        (rules.any (posRuleMatch isdir path) && !rules.any (negRuleMatch isdir path)) := by
    intro isdir path rules
    unfold should_ignore
    rw [should_ignore_foldl]
    simp
  refine ⟨hchar, ?_, ?_⟩
  · intro isdir path A hact hng hm
    rw [hchar]
    simp [posRuleMatch, negRuleMatch, hact, hng, hm]
  · intro isdir path A hact hng hm
    rw [hchar]
    have hbang : activeRule ('!' :: A) = true := by
      have : strStartsWith (str "#") ('!' :: A) = false := by
        have e : str "#" = ['#'] := rfl
        rw [e]
        simp [strStartsWith]
      simp [activeRule, this]
    have hneg : negRuleMatch isdir path ('!' :: A) = true := by
      have e : str "!" = ['!'] := rfl
      simp [negRuleMatch, hbang, e, strStartsWith, List.tail, hm]
    simp [List.any_cons, hneg]

/-- Witness for the amended C1 theorem: the pattern *.log matched by the
path x.log. -/
theorem should_ignore_characterization_witness :
    should_ignore (fun _ => false) (str "x.log") [str "*.log"] = true ∧
    should_ignore (fun _ => false) (str "x.log") [str "*.log", '!' :: str "*.log"] = false :=
  ⟨should_ignore_characterization.2.1 (fun _ => false) (str "x.log") (str "*.log")
      (by decide) (by decide) (by decide),
   should_ignore_characterization.2.2 (fun _ => false) (str "x.log") (str "*.log")
      (by decide) (by decide) (by decide)⟩

/-- C4: whenever the tokenizer is unavailable or errors,
`estimate_tokens` returns the floor of length/4 (and, being a total
function, never raises); in particular any 400-character text yields
100. -/
theorem estimate_tokens_fallback :
    (∀ (text : Str), estimate_tokens none text = text.length / 4)
    ∧ (∀ (f : Str → Option Nat) (text : Str), f text = none →
        estimate_tokens (some f) text = text.length / 4)
    ∧ (∀ (enc : Option (Str → Option Nat)) (text : Str),
        (enc = none ∨ ∃ f, enc = some f ∧ f text = none) → text.length = 400 →
        estimate_tokens enc text = 100) := by
  refine ⟨fun text => rfl, fun f text hf => by simp [estimate_tokens, hf], ?_⟩
  intro enc text henc hlen
  rcases henc with h | ⟨f, hf, htext⟩
  · subst h; simp [estimate_tokens, hlen]
  · subst hf; simp [estimate_tokens, htext, hlen]

/-- Witness for C4: a concrete 400-character text with no tokenizer
yields 100, and an erroring tokenizer falls back likewise. -/
theorem estimate_tokens_fallback_witness :
    estimate_tokens none (List.replicate 400 'a') = 100 ∧
    estimate_tokens (some fun _ => none) (List.replicate 400 'a') = 100 :=
  ⟨estimate_tokens_fallback.2.2 none (List.replicate 400 'a') (Or.inl rfl)
      (by rw [List.length_replicate]),
   estimate_tokens_fallback.2.2 (some fun _ => none) (List.replicate 400 'a')
      (Or.inr ⟨fun _ => none, rfl, rfl⟩) (by rw [List.length_replicate])⟩

theorem digitChar_ne_newline (m : Nat) : Nat.digitChar m ≠ '\n' := by
  match m with
  | 0 | 1 | 2 | 3 | 4 | 5 | 6 | 7 | 8 | 9 | 10 | 11 | 12 | 13 | 14 | 15 => decide
  | n + 16 =>
    intro h
    unfold Nat.digitChar at h
    iterate 16 rw [if_neg (by omega)] at h
    exact absurd h (by decide)

theorem mem_toDigitsCore (b : Nat) :
    ∀ (fuel n : Nat) (ds : List Char) (c : Char),
      c ∈ Nat.toDigitsCore b fuel n ds → c ∈ ds ∨ ∃ m, c = Nat.digitChar m := by
  intro fuel
  induction fuel with
  | zero => intro n ds c h; exact Or.inl h
  | succ fuel ih =>
    intro n ds c h
    unfold Nat.toDigitsCore at h
    dsimp only at h
    split at h
    · rcases List.mem_cons.mp h with h | h
      · exact Or.inr ⟨n % b, h⟩
      · exact Or.inl h
    · rcases ih (n / b) (Nat.digitChar (n % b) :: ds) c h with h' | h'
      · rcases List.mem_cons.mp h' with h'' | h''
        · exact Or.inr ⟨n % b, h''⟩
        · exact Or.inl h''
      · exact Or.inr h'

theorem natToStr_no_newline (n : Nat) : '\n' ∉ natToStr n := by
  intro hmem
  have hrepr : natToStr n = Nat.toDigits 10 n := rfl
  rw [hrepr] at hmem
  unfold Nat.toDigits at hmem
  rcases mem_toDigitsCore 10 (n + 1) n [] '\n' hmem with h | ⟨m, hm⟩
  · simp at h
  · exact digitChar_ne_newline m hm.symm

theorem pySplitlines_crlf (rest : Str) :
    pySplitlines ('\r' :: '\n' :: rest) = [] :: pySplitlines rest := rfl

theorem pySplitlines_cr (cs : Str) (h : cs.head? ≠ some '\n') :
    pySplitlines ('\r' :: cs) = [] :: pySplitlines cs := by
  cases cs with
  | nil => rfl
  | cons c0 cs0 =>
    have hc0 : c0 ≠ '\n' := by simpa using h
    rw [pySplitlines.eq_def]
    dsimp only
    rw [if_pos rfl]
    split
    · rename_i rest heq
      injection heq with h1 h2
      exact absurd h1 hc0
    · rfl

theorem pySplitlines_brk (c : Char) (cs : Str) (hcr : c ≠ '\r')
    (hb : c = '\n' ∨ c = '\x0b' ∨ c = '\x0c' ∨ c = '\x1c' ∨ c = '\x1d' ∨ c = '\x1e' ∨
      c = '\x85' ∨ c = ' ' ∨ c = ' ') :
    pySplitlines (c :: cs) = [] :: pySplitlines cs := by
  rw [pySplitlines.eq_def]
  dsimp only
  rw [if_neg hcr, if_pos hb]

theorem pySplitlines_plain (c : Char) (cs : Str) (hcr : c ≠ '\r')
    (hb : ¬(c = '\n' ∨ c = '\x0b' ∨ c = '\x0c' ∨ c = '\x1c' ∨ c = '\x1d' ∨ c = '\x1e' ∨
      c = '\x85' ∨ c = ' ' ∨ c = ' ')) :
    pySplitlines (c :: cs) =
      (match pySplitlines cs with
       | l :: ls => (c :: l) :: ls
       | [] => [[c]]) := by
  rw [pySplitlines.eq_def]
  dsimp only
  rw [if_neg hcr, if_neg hb]

theorem pySplitlines_no_newline :
    ∀ (content : Str), ∀ l ∈ pySplitlines content, '\n' ∉ l := by
  intro content
  induction content using pySplitlines.induct with
  | case1 => simp [pySplitlines]
  | case2 rest ih =>
    intro l hl
    rw [pySplitlines_crlf] at hl
    rcases List.mem_cons.mp hl with h | h
    · subst h; simp
    · exact ih l h
  | case3 rest hne ih =>
    intro l hl
    rw [pySplitlines_cr rest (by
      cases rest with
      | nil => simp
      | cons c0 cs0 =>
        simp only [List.head?_cons, ne_eq, Option.some.injEq]
        intro hc
        exact hne cs0 (by rw [hc]))] at hl
    rcases List.mem_cons.mp hl with h | h
    · subst h; simp
    · exact ih l h
  | case4 c cs hcr hbrk ih =>
    intro l hl
    rw [pySplitlines_brk c cs hcr hbrk] at hl
    rcases List.mem_cons.mp hl with h | h
    · subst h; simp
    · exact ih l h
  | case5 c cs hcr hbrk l0 ls0 heq ih =>
    intro l hl
    rw [pySplitlines_plain c cs hcr hbrk, heq] at hl
    have hcn : c ≠ '\n' := fun hc => hbrk (Or.inl hc)
    rcases List.mem_cons.mp hl with h | h
    · subst h
      intro hmem
      rcases List.mem_cons.mp hmem with h' | h'
      · exact hcn h'.symm
      · exact ih l0 (by rw [heq]; exact List.mem_cons_self l0 ls0) h'
    · exact ih l (by rw [heq]; exact List.mem_cons_of_mem l0 h)
  | case6 c cs hcr hbrk heq ih =>
    intro l hl
    rw [pySplitlines_plain c cs hcr hbrk, heq] at hl
    have hcn : c ≠ '\n' := fun hc => hbrk (Or.inl hc)
    rcases List.mem_cons.mp hl with h | h
    · subst h
      intro hmem
      rcases List.mem_cons.mp hmem with h' | h'
      · exact hcn h'.symm
      · simp at h'
    · simp at h

theorem splitChar_no_sep (sep : Char) (s : Str) (h : sep ∉ s) : splitChar sep s = [s] := by
  induction s with
  | nil => rfl
  | cons c cs ih =>
    have hc : ¬(c == sep) = true := by
      simp only [beq_iff_eq]
      intro hcc
      exact h (hcc ▸ List.mem_cons_self c cs)
    have hcs : sep ∉ cs := fun hm => h (List.mem_cons_of_mem c hm)
    rw [splitChar.eq_def]
    dsimp only
    rw [if_neg hc, ih hcs]

theorem splitChar_append (sep : Char) (l rest : Str) (h : sep ∉ l) :
    splitChar sep (l ++ sep :: rest) = l :: splitChar sep rest := by
  induction l with
  | nil =>
    rw [List.nil_append, splitChar.eq_def]
    dsimp only
    rw [if_pos (by simp)]
  | cons c cs ih =>
    have hc : ¬(c == sep) = true := by
      simp only [beq_iff_eq]
      intro hcc
      exact h (hcc ▸ List.mem_cons_self c cs)
    have hcs : sep ∉ cs := fun hm => h (List.mem_cons_of_mem c hm)
    rw [List.cons_append, splitChar.eq_def]
    dsimp only
    rw [if_neg hc, ih hcs]

theorem splitChar_joinNL :
    ∀ (ls : List Str), ls ≠ [] → (∀ l ∈ ls, '\n' ∉ l) →
      splitChar '\n' (joinNL ls) = ls := by
  intro ls
  induction ls with
  | nil => intro h; exact absurd rfl h
  | cons l0 ls0 ih =>
    intro _ hmem
    cases ls0 with
    | nil =>
      show splitChar '\n' l0 = [l0]
      exact splitChar_no_sep '\n' l0 (hmem l0 (List.mem_cons_self l0 []))
    | cons l1 ls1 =>
      show splitChar '\n' (l0 ++ '\n' :: joinNL (l1 :: ls1)) = l0 :: l1 :: ls1
      rw [splitChar_append '\n' l0 _ (hmem l0 (List.mem_cons_self l0 _))]
      rw [ih (by simp) (fun l hl => hmem l (List.mem_cons_of_mem l0 hl))]

/-- C3 counterexample: on a ten-line file the first nine indices are
padded on the right (left-justified), not left-padded as the claim
states.  The first output line is "1  | a", not " 1 | a". -/
theorem add_line_numbers_counterexample :
    add_line_numbers (str "a\nb\nc\nd\ne\nf\ng\nh\ni\nj") ≠
      spec_add_line_numbers (str "a\nb\nc\nd\ne\nf\ng\nh\ni\nj") ∧
    add_line_numbers (str "a\nb\nc\nd\ne\nf\ng\nh\ni\nj") =
      str "1  | a\n2  | b\n3  | c\n4  | d\n5  | e\n6  | f\n7  | g\n8  | h\n9  | i\n10 | j" ∧
    spec_add_line_numbers (str "a\nb\nc\nd\ne\nf\ng\nh\ni\nj") =
      str " 1 | a\n 2 | b\n 3 | c\n 4 | d\n 5 | e\n 6 | f\n 7 | g\n 8 | h\n 9 | i\n10 | j" :=
  ⟨by decide, by decide, by decide⟩

/-- C3 (amended): with line numbering requested, every line of the
result is the 1-based index of that line, left-justified (padded on the
right with spaces) to the width of the decimal representation of the
total line count, followed by the fixed delimiter " | ", followed by
the original line. -/
theorem add_line_numbers_spec :
    ∀ (content : Str) (i : Nat) (line : Str),
      (pySplitlines content)[i]? = some line →
      (splitChar '\n' (add_line_numbers content))[i]? =
        some (leftJustify (natToStr (i + 1))
            ((natToStr (pySplitlines content).length).length) ++ str " | " ++ line) := by
  intro content i line h
  have hne : pySplitlines content ≠ [] := by
    intro h0
    rw [h0] at h
    simp at h
  unfold add_line_numbers
  rw [if_neg hne]
  rw [splitChar_joinNL]
  · rw [List.getElem?_map, List.getElem?_enum, h]
    rfl
  · intro hmap
    have := congrArg List.length hmap
    simp at this
    exact hne this
  · intro l hl
    rcases List.mem_map.mp hl with ⟨⟨i', x⟩, hmem, hfx⟩
    have hx : x ∈ pySplitlines content := by
      have := List.mk_mem_enum_iff_getElem?.mp hmem
      exact List.getElem?_mem this
    subst hfx
    intro hnl
    rcases List.mem_append.mp hnl with hnl | hnl
    · rcases List.mem_append.mp hnl with hnl | hnl
      · rcases List.mem_append.mp hnl with hnl | hnl
        · exact natToStr_no_newline (i' + 1) hnl
        · rcases List.eq_of_mem_replicate hnl with h'
          exact absurd h' (by decide)
      · exact absurd hnl (by decide)
    · exact pySplitlines_no_newline content x hx hnl

/-- Witness for the amended C3 theorem at a concrete two-line input. -/
theorem add_line_numbers_spec_witness :
    (splitChar '\n' (add_line_numbers (str "a\nb")))[0]? =
      some (leftJustify (natToStr 1) ((natToStr (pySplitlines (str "a\nb")).length).length)
        ++ str " | " ++ str "a") :=
  add_line_numbers_spec (str "a\nb") 0 (str "a") (by decide)

/-! ### Order lemmas for the sort keys -/

theorem strLE_total : ∀ (a b : Str), strLE a b ∨ strLE b a := by
  intro a
  induction a with
  | nil => intro b; left; rfl
  | cons x xs ih =>
    intro b
    cases b with
    | nil => right; rfl
    | cons y ys =>
      rw [strLE.eq_def, strLE.eq_def]
      dsimp only
      rcases lt_trichotomy x y with h | h | h
      · left; rw [if_pos h]
      · subst h
        simp only [if_neg (lt_irrefl x)]
        rcases ih ys with h' | h'
        · left; exact h'
        · right; exact h'
      · right; rw [if_pos h]

theorem strLE_trans : ∀ (a b c : Str), strLE a b → strLE b c → strLE a c := by
  intro a
  induction a with
  | nil => intro b c _ _; rfl
  | cons x xs ih =>
    intro b c hab hbc
    cases b with
    | nil => rw [strLE.eq_def] at hab; simp at hab
    | cons y ys =>
      cases c with
      | nil => rw [strLE.eq_def] at hbc; simp at hbc
      | cons z zs =>
        rw [strLE.eq_def] at hab hbc ⊢
        dsimp only at hab hbc ⊢
        rcases lt_trichotomy x y with hxy | hxy | hxy
        · rcases lt_trichotomy y z with hyz | hyz | hyz
          · rw [if_pos (lt_trans hxy hyz)]
          · subst hyz; rw [if_pos hxy]
          · rw [if_pos hyz, if_neg (asymm hyz)] at hbc
            simp at hbc
        · subst hxy
          rcases lt_trichotomy x z with hyz | hyz | hyz
          · rw [if_pos hyz]
          · subst hyz
            simp only [if_neg (lt_irrefl x)] at hab hbc ⊢
            exact ih ys zs hab hbc
          · rw [if_pos hyz, if_neg (asymm hyz)] at hbc
            simp at hbc
        · rw [if_pos hxy, if_neg (asymm hxy)] at hab
          simp at hab

theorem strLE_antisymm : ∀ (a b : Str), strLE a b → strLE b a → a = b := by
  intro a
  induction a with
  | nil =>
    intro b _ hba
    cases b with
    | nil => rfl
    | cons y ys => rw [strLE.eq_def] at hba; simp at hba
  | cons x xs ih =>
    intro b hab hba
    cases b with
    | nil => rw [strLE.eq_def] at hab; simp at hab
    | cons y ys =>
      rw [strLE.eq_def] at hab hba
      dsimp only at hab hba
      rcases lt_trichotomy x y with hxy | hxy | hxy
      · rw [if_pos hxy, if_neg (asymm hxy)] at hba
        simp at hba
      · subst hxy
        simp only [if_neg (lt_irrefl x)] at hab hba
        rw [ih ys hab hba]
      · rw [if_pos hxy, if_neg (asymm hxy)] at hab
        simp at hab

theorem pyKeyLE_total (a b : Bool × Str) : pyKeyLE a b ∨ pyKeyLE b a := by
  unfold pyKeyLE
  by_cases h : a.1 = b.1
  · rw [if_pos h, if_pos h.symm]
    exact strLE_total a.2 b.2
  · rw [if_neg h, if_neg (fun h' => h h'.symm)]
    cases ha : a.1 <;> cases hb : b.1 <;> simp_all

theorem pyKeyLE_trans (a b c : Bool × Str) :
    pyKeyLE a b → pyKeyLE b c → pyKeyLE a c := by
  unfold pyKeyLE
  intro hab hbc
  by_cases h1 : a.1 = b.1
  · by_cases h2 : b.1 = c.1
    · rw [if_pos h1] at hab
      rw [if_pos h2] at hbc
      rw [if_pos (h1.trans h2)]
      exact strLE_trans _ _ _ hab hbc
    · rw [if_neg h2] at hbc
      rw [if_neg (h1 ▸ h2)]
      rw [h1]
      exact hbc
  · by_cases h2 : b.1 = c.1
    · rw [if_neg h1] at hab
      rw [if_neg (h2 ▸ h1)]
      rw [← h2]
      exact hab
    · rw [if_neg h1] at hab
      rw [if_neg h2] at hbc
      cases ha : a.1 <;> cases hb : b.1 <;> cases hc : c.1 <;> simp_all

theorem orderedInsert_map {α β : Type} (f : α → β) (ra : α → α → Prop)
    (rb : β → β → Prop) [DecidableRel ra] [DecidableRel rb]
    (hf : ∀ a b, ra a b ↔ rb (f a) (f b)) (a : α) :
    ∀ (l : List α), (List.orderedInsert ra a l).map f =
      List.orderedInsert rb (f a) (l.map f) := by
  intro l
  induction l with
  | nil => rfl
  | cons b l ih =>
    rw [List.orderedInsert, List.map_cons, List.orderedInsert]
    by_cases h : ra a b
    · rw [if_pos h, if_pos ((hf a b).mp h)]
      rfl
    · rw [if_neg h, if_neg (fun h' => h ((hf a b).mpr h'))]
      rw [List.map_cons, ih]

theorem insertionSort_map {α β : Type} (f : α → β) (ra : α → α → Prop)
    (rb : β → β → Prop) [DecidableRel ra] [DecidableRel rb]
    (hf : ∀ a b, ra a b ↔ rb (f a) (f b)) :
    ∀ (l : List α), (List.insertionSort ra l).map f =
      List.insertionSort rb (l.map f) := by
  intro l
  induction l with
  | nil => rfl
  | cons a l ih =>
    rw [List.insertionSort, List.map_cons, List.insertionSort, ← ih]
    exact orderedInsert_map f ra rb hf a _

/-! ### Fuel sufficiency for the tree walkers -/

theorem FSTree.size_pos : ∀ (t : FSTree), 1 ≤ t.size := by
  intro t
  cases t <;> simp [FSTree.size]

theorem FSTree.size_lt_sizeChildren_of_mem :
    ∀ (cs : List (Str × FSTree)) (e : Str × FSTree), e ∈ cs →
      FSTree.size e.2 < FSTree.sizeChildren cs := by
  intro cs
  induction cs with
  | nil => intro e h; simp at h
  | cons c rest ih =>
    intro e h
    rw [FSTree.sizeChildren]
    rcases List.mem_cons.mp h with h' | h'
    · subst h'; omega
    · have := ih e h'
      omega

theorem TreeNode.size_le_sizeNodes_of_mem :
    ∀ (ns : List TreeNode) (n : TreeNode), n ∈ ns →
      TreeNode.size n < TreeNode.sizeNodes ns := by
  intro ns
  induction ns with
  | nil => intro n h; simp at h
  | cons m rest ih =>
    intro n h
    rw [TreeNode.sizeNodes]
    rcases List.mem_cons.mp h with h' | h'
    · subst h'; omega
    · have := ih n h'
      omega

theorem TreeNode.sizeNodes_children_lt (n : TreeNode) :
    TreeNode.sizeNodes n.children < TreeNode.size n := by
  cases n with
  | mk nm d cs => rw [TreeNode.size, TreeNode.children]; omega

theorem flatMap_congr {α β : Type} {l : List α} {f g : α → List β}
    (h : ∀ a ∈ l, f a = g a) : l.flatMap f = l.flatMap g := by
  induction l with
  | nil => rfl
  | cons a rest ih =>
    rw [List.flatMap_cons, List.flatMap_cons, h a (List.mem_cons_self a rest),
      ih fun b hb => h b (List.mem_cons_of_mem a hb)]

theorem mem_of_mem_enum {α : Type} {l : List α} {i : Nat} {x : α}
    (h : (i, x) ∈ l.enum) : x ∈ l :=
  List.getElem?_mem (List.mk_mem_enum_iff_getElem?.mp h)

theorem mem_insertionSort {α : Type} (r : α → α → Prop) [DecidableRel r]
    {l : List α} {x : α} (h : x ∈ List.insertionSort r l) : x ∈ l :=
  (List.perm_insertionSort r l).mem_iff.mp h

theorem renderLines_fuel_irrelevant :
    ∀ (f1 f2 : Nat) (nodes : List TreeNode) (pfx : Str),
      TreeNode.sizeNodes nodes ≤ f1 → TreeNode.sizeNodes nodes ≤ f2 →
      renderLines_fuel f1 nodes pfx = renderLines_fuel f2 nodes pfx := by
  intro f1
  induction f1 with
  | zero =>
    intro f2 nodes pfx h1 h2
    cases nodes with
    | nil =>
      cases f2 with
      | zero => rfl
      | succ f2 => rw [renderLines_fuel, renderLines_fuel]; rfl
    | cons n rest =>
      rw [TreeNode.sizeNodes] at h1
      omega
  | succ f1 ih =>
    intro f2 nodes pfx h1 h2
    cases f2 with
    | zero =>
      cases nodes with
      | nil => rw [renderLines_fuel, renderLines_fuel]; rfl
      | cons n rest =>
        rw [TreeNode.sizeNodes] at h2
        omega
    | succ f2 =>
      rw [renderLines_fuel, renderLines_fuel]
      dsimp only
      apply flatMap_congr
      intro ie hie
      have hmem : ie.2 ∈ nodes := by
        cases ie with
        | mk i x => exact mem_of_mem_enum hie
      have hsz : TreeNode.sizeNodes ie.2.children < TreeNode.sizeNodes nodes := by
        have := TreeNode.size_le_sizeNodes_of_mem nodes ie.2 hmem
        have := TreeNode.sizeNodes_children_lt ie.2
        omega
      by_cases hd : ie.2.isDir = true
      · rw [if_pos hd, if_pos hd, ih f2 ie.2.children _ (by omega) (by omega)]
      · rw [if_neg hd, if_neg hd]

theorem scanTreeNB_fuel_irrelevant (isdir : Str → Bool) (ih0 : Bool) (rules : List Str) :
    ∀ (f1 f2 : Nat) (t : FSTree) (path : Str),
      FSTree.size t ≤ f1 → FSTree.size t ≤ f2 →
      scanTreeNB_fuel isdir ih0 rules f1 t path = scanTreeNB_fuel isdir ih0 rules f2 t path := by
  intro f1
  induction f1 with
  | zero =>
    intro f2 t path h1 h2
    have := FSTree.size_pos t
    omega
  | succ f1 ihf =>
    intro f2 t path h1 h2
    cases f2 with
    | zero =>
      have := FSTree.size_pos t
      omega
    | succ f2 =>
      cases t with
      | file fd => rfl
      | dir listable children =>
        cases listable with
        | false => rfl
        | true =>
          rw [scanTreeNB_fuel, scanTreeNB_fuel]
          congr 1
          apply List.map_congr_left
          intro e he
          have hmem : e ∈ children := (List.mem_filter.mp he).1
          have hsz : FSTree.size e.2 < 1 + FSTree.sizeChildren children := by
            have := FSTree.size_lt_sizeChildren_of_mem children e hmem
            omega
          rw [FSTree.size] at h1 h2
          congr 1
          exact ihf f2 e.2 (pyJoin path e.1) (by omega) (by omega)

instance : IsTotal TreeNode (fun a b => nodeKeyLE a b = true) :=
  ⟨fun _ _ => pyKeyLE_total _ _⟩

instance : IsTrans TreeNode (fun a b => nodeKeyLE a b = true) :=
  ⟨fun _ _ _ hab hbc => pyKeyLE_trans _ _ _ hab hbc⟩

instance : IsTotal (Str × FSTree) (fun a b => entryKeyLE a b = true) :=
  ⟨fun _ _ => pyKeyLE_total _ _⟩

instance : IsTrans (Str × FSTree) (fun a b => entryKeyLE a b = true) :=
  ⟨fun _ _ _ hab hbc => pyKeyLE_trans _ _ _ hab hbc⟩

theorem load_fuel_allLevelsSorted (isdir : Str → Bool) (ih0 ug : Bool) (rules : List Str) :
    ∀ (fuel : Nat) (t : FSTree) (path : Str), FSTree.size t ≤ fuel →
      AllLevelsSorted (load_directory_recursive_fuel isdir ih0 ug rules fuel t path) := by
  intro fuel
  induction fuel with
  | zero =>
    intro t path h
    have := FSTree.size_pos t
    omega
  | succ fuel ihf =>
    intro t path h
    cases t with
    | file fd =>
      rw [load_directory_recursive_fuel]
      exact ⟨[], List.chain'_nil, by simp⟩
    | dir listable children =>
      cases listable with
      | false =>
        rw [load_directory_recursive_fuel]
        exact ⟨[], List.chain'_nil, by simp⟩
      | true =>
        rw [load_directory_recursive_fuel]
        refine ⟨_, ?_, ?_⟩
        · exact (List.sorted_insertionSort _ _).chain'
        · intro n hn
          have hn' := mem_insertionSort _ hn
          rcases List.mem_filterMap.mp hn' with ⟨e, hmem, he⟩
          rw [FSTree.size] at h
          have hsz := FSTree.size_lt_sizeChildren_of_mem children e hmem
          split at he
          · exact absurd he (by simp)
          · split at he
            · exact absurd he (by simp)
            · split at he
              · rename_i fd hfd
                split at he
                · exact absurd he (by simp)
                · rw [Option.some.injEq] at he
                  rw [← he, TreeNode.children]
                  exact ⟨[], List.chain'_nil, by simp⟩
              · rename_i b cs hdir
                rw [Option.some.injEq] at he
                rw [← he, TreeNode.children]
                apply ihf
                rw [hdir] at hsz
                omega

/-- C5: at every level of the scanned tree the surviving children are
ordered directories first, then case-insensitive name, and the renderer
shows siblings b.txt, directory A and a.txt in the order A, a.txt,
b.txt. -/
theorem scan_sorted_and_render_order :
    (∀ (isdir : Str → Bool) (ih0 ug : Bool) (rules : List Str) (t : FSTree) (path : Str),
        AllLevelsSorted (load_directory_recursive isdir ih0 ug rules t path))
    ∧ generate_project_tree (fun _ => false) true []
        (.dir true
          [(str "b.txt", .file ⟨true, true, [], [0x62]⟩),
           (str "A", .dir true []),
           (str "a.txt", .file ⟨true, true, [], [0x61]⟩)])
        (str "/base") [] =
        [str "├── A", str "├── a.txt", str "└── b.txt"] := by
  constructor
  · intro isdir ih0 ug rules t path
    exact load_fuel_allLevelsSorted isdir ih0 ug rules (FSTree.size t) t path (le_refl _)
  · decide

theorem eq_of_mem_of_nodup_map {α β : Type} (f : α → β) :
    ∀ (l : List α), (l.map f).Nodup →
      ∀ a ∈ l, ∀ b ∈ l, f a = f b → a = b := by
  intro l
  induction l with
  | nil => intro _ a ha; simp at ha
  | cons x rest ih =>
    intro hnd a ha b hb hfab
    rw [List.map_cons, List.nodup_cons] at hnd
    rcases List.mem_cons.mp ha with ha' | ha' <;> rcases List.mem_cons.mp hb with hb' | hb'
    · rw [ha', hb']
    · subst ha'
      exact absurd (hfab ▸ List.mem_map_of_mem f hb') hnd.1
    · subst hb'
      exact absurd (hfab ▸ List.mem_map_of_mem f ha') hnd.1
    · exact ih hnd.2 a ha' b hb' hfab

theorem nodeHasPath_one (nm : Str) (ns : List TreeNode) :
    nodeHasPath [nm] ns = ns.any fun n => n.name == nm := rfl

theorem nodeHasPath_cons_cons (nm r2 : Str) (rest2 : List Str) (ns : List TreeNode) :
    nodeHasPath (nm :: r2 :: rest2) ns =
      ns.any fun n => n.name == nm && nodeHasPath (r2 :: rest2) n.children := rfl

theorem nodupAt_cons_cons (nm r2 : Str) (rest2 : List Str) (cs : List (Str × FSTree)) :
    nodupAt (nm :: r2 :: rest2) cs =
      (decide (cs.map Prod.fst).Nodup &&
        (match (cs.find? fun e => e.1 == nm).map Prod.snd with
         | some (.dir _ cs0) => nodupAt (r2 :: rest2) cs0
         | _ => true)) := rfl

theorem fsGet?_cons_cons (nm r2 : Str) (rest2 : List Str) (cs : List (Str × FSTree)) :
    fsGet? (nm :: r2 :: rest2) cs =
      (match (cs.find? fun e => e.1 == nm).map Prod.snd with
       | some (.dir _ cs0) => fsGet? (r2 :: rest2) cs0
       | _ => none) := rfl

theorem load_fuel_excludes_binary (isdir : Str → Bool) (ih0 ug : Bool) (rules : List Str) :
    ∀ (p : List Str) (fuel : Nat) (cs : List (Str × FSTree)) (path : Str) (fd : FileData),
      1 + FSTree.sizeChildren cs ≤ fuel →
      nodupAt p cs = true →
      fsGet? p cs = some (.file fd) →
      is_likely_binary_data fd = true →
      nodeHasPath p
        (load_directory_recursive_fuel isdir ih0 ug rules fuel (.dir true cs) path) = false := by
  intro p
  induction p with
  | nil => intro fuel cs path fd _ _ hget _; simp [fsGet?] at hget
  | cons nm rest ihp =>
    intro fuel cs path fd hfuel hnd hget hbin
    match fuel with
    | 0 => omega
    | fuel + 1 =>
      rw [load_directory_recursive_fuel]
      cases rest with
      | nil =>
        rw [fsGet?] at hget
        cases hfind : cs.find? (fun e => e.1 == nm) with
        | none => rw [hfind] at hget; exact absurd hget (by simp)
        | some ent =>
          rw [hfind] at hget
          rw [Option.map_some', Option.some.injEq] at hget
          have hentmem : ent ∈ cs := List.mem_of_find?_eq_some hfind
          have hentname : ent.1 = nm := by
            have := List.find?_some hfind
            simpa using this
          rw [nodeHasPath]
          rw [List.any_eq_false]
          intro n hn
          have hn' := mem_insertionSort _ hn
          rcases List.mem_filterMap.mp hn' with ⟨e, hmem, he⟩
          simp only [beq_iff_eq]
          intro hname
          have hename : e.1 = nm := by
            split at he
            · exact absurd he (by simp)
            · split at he
              · exact absurd he (by simp)
              · split at he
                · split at he
                  · exact absurd he (by simp)
                  · rw [Option.some.injEq] at he
                    rw [← he, TreeNode.name] at hname
                    exact hname
                · rw [Option.some.injEq] at he
                  rw [← he, TreeNode.name] at hname
                  exact hname
          have hnodup : (cs.map Prod.fst).Nodup := by
            rw [nodupAt] at hnd
            simpa using hnd
          have hee : e = ent :=
            eq_of_mem_of_nodup_map Prod.fst cs hnodup e hmem ent hentmem
              (by rw [hename, hentname])
          rw [hee, hget] at he
          split at he
          · exact absurd he (by simp)
          · split at he
            · exact absurd he (by simp)
            · have he' : (if is_likely_binary_data fd = true then none
                  else some (TreeNode.mk ent.1 false [])) = some n := he
              rw [if_pos hbin] at he'
              exact absurd he' (by simp)
      | cons r2 rest2 =>
        rw [fsGet?_cons_cons] at hget
        cases hfind : cs.find? (fun e => e.1 == nm) with
        | none => rw [hfind] at hget; simp at hget
        | some ent =>
          rw [hfind] at hget
          rw [Option.map_some'] at hget
          have hentmem : ent ∈ cs := List.mem_of_find?_eq_some hfind
          have hentname : ent.1 = nm := by
            have := List.find?_some hfind
            simpa using this
          cases hent2 : ent.2 with
          | file fd' => rw [hent2] at hget; simp at hget
          | dir b' cs' =>
            rw [hent2] at hget
            have hget' : fsGet? (r2 :: rest2) cs' = some (.file fd) := by
              simpa using hget
            rw [nodupAt_cons_cons, hfind, Option.map_some', hent2] at hnd
            rw [Bool.and_eq_true] at hnd
            have hnd' : nodupAt (r2 :: rest2) cs' = true ∧ (cs.map Prod.fst).Nodup :=
              ⟨by simpa using hnd.2, by simpa using hnd.1⟩
            rw [nodeHasPath_cons_cons]
            rw [List.any_eq_false]
            intro n hn
            have hn' := mem_insertionSort _ hn
            rcases List.mem_filterMap.mp hn' with ⟨e, hmem, he⟩
            intro hcontra
            rw [Bool.and_eq_true, beq_iff_eq] at hcontra
            obtain ⟨hname, hrest⟩ := hcontra
            · have hename : e.1 = nm := by
                split at he
                · exact absurd he (by simp)
                · split at he
                  · exact absurd he (by simp)
                  · split at he
                    · split at he
                      · exact absurd he (by simp)
                      · rw [Option.some.injEq] at he
                        rw [← he, TreeNode.name] at hname
                        exact hname
                    · rw [Option.some.injEq] at he
                      rw [← he, TreeNode.name] at hname
                      exact hname
              have hee : e = ent :=
                eq_of_mem_of_nodup_map Prod.fst cs hnd'.2 e hmem ent hentmem
                  (by rw [hename, hentname])
              rw [hee, hent2] at he
              split at he
              · exact absurd he (by simp)
              · split at he
                · exact absurd he (by simp)
                · have he' : some (TreeNode.mk ent.1 true
                      (load_directory_recursive_fuel isdir ih0 ug rules fuel (FSTree.dir b' cs')
                        (pyJoin path ent.1))) = some n := he
                  rw [Option.some.injEq] at he'
                  have hsz : 1 + FSTree.sizeChildren cs' ≤ fuel := by
                    have h1 := FSTree.size_lt_sizeChildren_of_mem cs ent hentmem
                    rw [hent2, FSTree.size] at h1
                    omega
                  cases b' with
                  | false =>
                    cases fuel with
                    | zero => omega
                    | succ m =>
                      rw [← he', TreeNode.children] at hrest
                      rw [load_directory_recursive_fuel] at hrest
                      cases rest2 with
                      | nil =>
                        rw [nodeHasPath_one] at hrest
                        simp at hrest
                      | cons a bb =>
                        rw [nodeHasPath_cons_cons] at hrest
                        simp at hrest
                  | true =>
                    have hrec := ihp fuel cs' (pyJoin path ent.1) fd hsz hnd'.1 hget' hbin
                    rw [← he', TreeNode.children] at hrest
                    rw [hrec] at hrest
                    exact absurd hrest (by simp)

/-- C2 counterexample: in XML format a likely-binary path in
selectedPaths does not produce an inline warning marker; the appended
f-string is empty, so the whole output is the bare context skeleton
with a blank line, containing neither the skip text nor the file name. -/
theorem binary_xml_no_warning_counterexample :
    generate_output fsBin (.dir true []) (fun _ => false) (str "/b") [str "/b/x.bin"]
        (str "xml") false false (some (str "/b")) false [] false =
      str "<context>\n<files>\n\n</files>\n</context>" ∧
    strContains (str "Skipping") (str "<context>\n<files>\n\n</files>\n</context>") = false ∧
    strContains (str "x.bin") (str "<context>\n<files>\n\n</files>\n</context>") = false :=
  ⟨by decide, by decide, by decide⟩

/-- C2 (amended): a file whose first 1024 bytes contain a null byte (or
whose probe read fails) never appears in the scanned tree, at any
depth; if such a path is passed to serialize, its content is not
emitted: in markdown and plain-text formats an inline warning line
replaces it, while in XML format an empty line is appended; and
processing continues with all remaining files. -/
theorem binary_exclusion_and_skip :
    (∀ (isdir : Str → Bool) (ih0 ug : Bool) (rules : List Str) (cs : List (Str × FSTree))
        (path : Str) (p : List Str) (fd : FileData),
        nodupAt p cs = true → fsGet? p cs = some (.file fd) →
        is_likely_binary_data fd = true →
        nodeHasPath p (load_directory_recursive isdir ih0 ug rules (.dir true cs) path) = false)
    ∧ (∀ (fs : Str → Option FileData) (fmt : Str) (iln : Bool) (base : Option Str)
        (cwd p : Str), is_likely_binary_file fs p = true →
        fileBlock fs fmt iln base cwd p =
          (if fmt = str "xml" then [[]]
           else [str "# Skipping likely binary file: " ++ basename p]))
    ∧ (∀ (fs : Str → Option FileData) (fmt : Str) (iln : Bool) (base : Option Str) (cwd : Str)
        (l1 l2 : List Str) (p : Str),
        (l1 ++ p :: l2).flatMap (fileBlock fs fmt iln base cwd) =
          l1.flatMap (fileBlock fs fmt iln base cwd) ++ fileBlock fs fmt iln base cwd p ++
            l2.flatMap (fileBlock fs fmt iln base cwd)) := by
  refine ⟨?_, ?_, ?_⟩
  · intro isdir ih0 ug rules cs path p fd hnd hget hbin
    unfold load_directory_recursive
    apply load_fuel_excludes_binary isdir ih0 ug rules p (FSTree.size (.dir true cs)) cs path fd
      (by rw [FSTree.size]) hnd hget hbin
  · intro fs fmt iln base cwd p hbin
    unfold fileBlock
    rw [if_pos hbin]
  · intro fs fmt iln base cwd l1 l2 p
    rw [List.flatMap_append, List.flatMap_cons, List.append_assoc]

/-- Witness for the amended C2 theorem: a concrete binary file is
excluded from a concrete scan and skipped by the serializer. -/
theorem binary_exclusion_and_skip_witness :
    nodeHasPath [str "x.bin"]
      (load_directory_recursive (fun _ => false) true false []
        (.dir true [(str "x.bin", .file fdBin)]) (str "/b")) = false ∧
    fileBlock fsBin (str "plaintext") false none (str "/b") (str "/b/x.bin") =
      (if str "plaintext" = str "xml" then [[]]
       else [str "# Skipping likely binary file: " ++ basename (str "/b/x.bin")]) :=
  ⟨binary_exclusion_and_skip.1 (fun _ => false) true false []
      [(str "x.bin", .file fdBin)] (str "/b") [str "x.bin"] fdBin
      (by decide) (by rfl) (by decide),
   binary_exclusion_and_skip.2.1 fsBin (str "plaintext") false none (str "/b")
      (str "/b/x.bin") (by decide)⟩

/-- C7 counterexample: in XML format a per-file read error does not
produce an inline warning; the appended f-string is empty, so the
output is the bare context skeleton with a blank line and contains no
warning text. -/
theorem error_xml_no_warning_counterexample :
    generate_output fsErr (.dir true []) (fun _ => false) (str "/b") [str "/b/e.txt"]
        (str "xml") false false (some (str "/b")) false [] false =
      str "<context>\n<files>\n\n</files>\n</context>" ∧
    strContains (str "Warning") (str "<context>\n<files>\n\n</files>\n</context>") = false :=
  ⟨by decide, by decide⟩

/-- C7 (amended): no error originating from a single file or subtree
aborts a scan or serialize call: an unlistable directory yields an
empty child list in both walkers, and a per-file read error during
serialization is caught at file granularity and converted to an inline
warning line in markdown and plain-text formats (an empty line in XML
format), after which processing continues with every remaining file. -/
theorem per_file_error_isolation :
    (∀ (isdir : Str → Bool) (ih0 : Bool) (rules : List Str) (cs : List (Str × FSTree))
        (path pfx : Str),
        generate_project_tree isdir ih0 rules (.dir false cs) path pfx = [])
    ∧ (∀ (isdir : Str → Bool) (ih0 ug : Bool) (rules : List Str) (cs : List (Str × FSTree))
        (path : Str),
        load_directory_recursive isdir ih0 ug rules (.dir false cs) path = [])
    ∧ (∀ (fs : Str → Option FileData) (fmt : Str) (iln : Bool) (base : Option Str)
        (cwd p : Str) (fd : FileData), fs p = some fd → fd.probe_ok = true →
        (fd.bytes.take BINARY_CHECK_CHUNK_SIZE).contains 0 = false → fd.read_ok = false →
        fileBlock fs fmt iln base cwd p =
          (if fmt = str "xml" then [[]]
           else [str "# Warning: Error processing file '" ++ basename p ++ str "': " ++
             fd.err_msg]))
    ∧ (∀ (fs : Str → Option FileData) (fmt : Str) (iln : Bool) (base : Option Str) (cwd : Str)
        (l1 l2 : List Str) (p : Str),
        joinNL ((l1 ++ p :: l2).flatMap (fileBlock fs fmt iln base cwd)) =
          joinNL (l1.flatMap (fileBlock fs fmt iln base cwd) ++
            fileBlock fs fmt iln base cwd p ++ l2.flatMap (fileBlock fs fmt iln base cwd))) := by
  refine ⟨?_, ?_, ?_, ?_⟩
  · intro isdir ih0 rules cs path pfx
    unfold generate_project_tree
    have hs : FSTree.size (.dir false cs) = FSTree.sizeChildren cs + 1 := by
      rw [FSTree.size]; omega
    rw [hs]
    rfl
  · intro isdir ih0 ug rules cs path
    unfold load_directory_recursive
    have hs : FSTree.size (.dir false cs) = FSTree.sizeChildren cs + 1 := by
      rw [FSTree.size]; omega
    rw [hs]
    rfl
  · intro fs fmt iln base cwd p fd hfs hprobe hnul hro
    have h0 : is_likely_binary_file fs p = is_likely_binary_data fd := by
      unfold is_likely_binary_file
      rw [hfs]
    have hbin : is_likely_binary_file fs p = false := by
      rw [h0]
      unfold is_likely_binary_data
      rw [if_pos hprobe]
      exact hnul
    unfold fileBlock
    rw [hbin]
    simp only [Bool.false_eq_true, if_false]
    simp only [hfs]
    rw [hro]
    simp
  · intro fs fmt iln base cwd l1 l2 p
    rw [List.flatMap_append, List.flatMap_cons, List.append_assoc]

/-- Witness for the amended C7 theorem: a concrete erroring file yields
exactly its inline warning line in plain-text format. -/
theorem per_file_error_isolation_witness :
    fileBlock fsErr (str "plaintext") false none (str "/b") (str "/b/e.txt") =
      (if str "plaintext" = str "xml" then [[]]
       else [str "# Warning: Error processing file '" ++ basename (str "/b/e.txt") ++
         str "': " ++ fdErr.err_msg]) :=
  per_file_error_isolation.2.2.1 fsErr (str "plaintext") false none (str "/b")
    (str "/b/e.txt") fdErr (by rfl) (by decide) (by decide) (by decide)

instance : IsTotal Str (fun a b => strLE a b = true) := ⟨strLE_total⟩

instance : IsTrans Str (fun a b => strLE a b = true) := ⟨strLE_trans⟩

instance : IsAntisymm Str (fun a b => strLE a b = true) := ⟨strLE_antisymm⟩

theorem pySorted_perm_invariant {l1 l2 : List Str} (hperm : l1.Perm l2) :
    pySorted l1 = pySorted l2 := by
  apply List.eq_of_perm_of_sorted
    ((List.perm_insertionSort _ l1).trans (hperm.trans (List.perm_insertionSort _ l2).symm))
    (List.sorted_insertionSort _ l1)
    (List.sorted_insertionSort _ l2)

/-- C8: the serializer output is a pure function of its inputs (two
calls with identical arguments are identical), and, because the
selected paths are sorted before processing, the output is invariant
under any permutation of the selected-paths list. -/
theorem generate_output_pure_perm :
    (∀ (fs : Str → Option FileData) (treeFS : FSTree) (isdir : Str → Bool) (cwd : Str)
        (paths : List Str) (fmt : Str) (iln ipt : Bool) (base : Option Str) (ug : Bool)
        (rules : List Str) (hc : Bool),
        generate_output fs treeFS isdir cwd paths fmt iln ipt base ug rules hc =
          generate_output fs treeFS isdir cwd paths fmt iln ipt base ug rules hc)
    ∧ (∀ (fs : Str → Option FileData) (treeFS : FSTree) (isdir : Str → Bool) (cwd : Str)
        (l1 l2 : List Str) (fmt : Str) (iln ipt : Bool) (base : Option Str) (ug : Bool)
        (rules : List Str) (hc : Bool), l1.Perm l2 →
        generate_output fs treeFS isdir cwd l1 fmt iln ipt base ug rules hc =
          generate_output fs treeFS isdir cwd l2 fmt iln ipt base ug rules hc) := by
  refine ⟨fun _ _ _ _ _ _ _ _ _ _ _ _ => rfl, ?_⟩
  intro fs treeFS isdir cwd l1 l2 fmt iln ipt base ug rules hc hperm
  by_cases h1 : l1 = []
  · have h2 : l2 = [] := (h1 ▸ hperm : ([] : List Str).Perm l2).symm.eq_nil
    rw [h1, h2]
  · have h2 : l2 ≠ [] := fun h => h1 (h ▸ hperm : l1.Perm []).eq_nil
    have hsort : pySorted l1 = pySorted l2 := pySorted_perm_invariant hperm
    unfold generate_output
    rw [if_pos h1, if_pos h2, hsort]

/-- Witness for C8 at a concrete permuted pair of path lists. -/
theorem generate_output_pure_perm_witness :
    generate_output fsBin (.dir true []) (fun _ => false) (str "/b")
        [str "/b/x.bin", str "/b/y.txt"] (str "plaintext") false false none false [] false =
      generate_output fsBin (.dir true []) (fun _ => false) (str "/b")
        [str "/b/y.txt", str "/b/x.bin"] (str "plaintext") false false none false [] false :=
  generate_output_pure_perm.2 fsBin (.dir true []) (fun _ => false) (str "/b")
    [str "/b/x.bin", str "/b/y.txt"] [str "/b/y.txt", str "/b/x.bin"] (str "plaintext")
    false false none false [] false (List.Perm.swap _ _ _)

/-- Counterexample to C9 as stated: the text-mode read also performs
universal-newline translation, so for a file whose bytes hold a CRLF
pair and a lone CR the content emitted between the plain-text markers
is the newline-translated text, which differs from the plain
UTF-8-replace decode of the bytes. -/
theorem plaintext_newline_counterexample :
    generate_output fsCR (.dir true []) (fun _ => false) (str "/cwd") [str "/base/c.txt"]
        (str "plaintext") false false (some (str "/base")) false [] false =
      joinNL [str "--- Files ---", [], str "--- File: c.txt ---", str "a\nb\nc",
        str "--- End File ---", []]
    ∧ utf8DecodeReplace fdCR.bytes = str "a\r\nb\rc"
    ∧ (str "a\nb\nc" : Str) ≠ str "a\r\nb\rc" :=
  ⟨by decide, by decide, by decide⟩

/-- C9 (amended): with plain-text format and line numbering off, each
selected readable non-binary file is reproduced between its file
markers, the only transformations being total UTF-8 decoding with the
replacement character for invalid sequences and universal-newline
translation of the decoded text. -/
theorem plaintext_verbatim :
    ∀ (fs : Str → Option FileData) (cwd : Str) (base : Option Str) (p : Str) (fd : FileData),
      fs p = some fd → fd.probe_ok = true →
      (fd.bytes.take BINARY_CHECK_CHUNK_SIZE).contains 0 = false → fd.read_ok = true →
      (fileBlock fs (str "plaintext") false base cwd p =
        [str "--- File: " ++ compute_rel_path cwd base p ++ str " ---",
         universalNewlines (utf8DecodeReplace fd.bytes), str "--- End File ---", []])
      ∧ (∀ (treeFS : FSTree) (isdir : Str → Bool) (ug : Bool) (rules : List Str) (hc : Bool),
        generate_output fs treeFS isdir cwd [p] (str "plaintext") false false base ug rules hc =
          joinNL [str "--- Files ---", [],
            str "--- File: " ++ compute_rel_path cwd base p ++ str " ---",
            universalNewlines (utf8DecodeReplace fd.bytes), str "--- End File ---", []]) := by
  intro fs cwd base p fd hfs hprobe hnul hro
  have h0 : is_likely_binary_file fs p = is_likely_binary_data fd := by
    unfold is_likely_binary_file
    rw [hfs]
  have hbin : is_likely_binary_file fs p = false := by
    rw [h0]
    unfold is_likely_binary_data
    rw [if_pos hprobe]
    exact hnul
  have hblock : fileBlock fs (str "plaintext") false base cwd p =
      [str "--- File: " ++ compute_rel_path cwd base p ++ str " ---",
       universalNewlines (utf8DecodeReplace fd.bytes), str "--- End File ---", []] := by
    unfold fileBlock
    rw [hbin]
    simp only [Bool.false_eq_true, if_false]
    simp only [hfs]
    rw [if_pos hro]
    simp
  refine ⟨hblock, ?_⟩
  intro treeFS isdir ug rules hc
  unfold generate_output
  rw [if_pos (by simp : ([p] : List Str) ≠ [])]
  have hsorted : pySorted [p] = [p] := rfl
  rw [hsorted]
  rw [List.flatMap_cons, List.flatMap_nil, hblock]
  simp +decide

/-- Witness for C9 at a concrete one-file filesystem. -/
theorem plaintext_verbatim_witness :
    generate_output fsTxt (.dir true []) (fun _ => false) (str "/cwd") [str "/base/b.txt"]
        (str "plaintext") false false (some (str "/base")) false [] false =
      joinNL [str "--- Files ---", [],
        str "--- File: " ++
          compute_rel_path (str "/cwd") (some (str "/base")) (str "/base/b.txt") ++ str " ---",
        universalNewlines (utf8DecodeReplace fdTxt.bytes), str "--- End File ---", []] :=
  (plaintext_verbatim fsTxt (str "/cwd") (some (str "/base")) (str "/base/b.txt") fdTxt
    (by rfl) (by decide) (by decide) (by decide)).2 (.dir true []) (fun _ => false) false [] false

/-- C10: the serializer emits the path relative to the base directory
exactly when the absolute file path starts with the absolute base
directory followed by the separator; any other selected path, and any
path when the base directory is absent or empty, is emitted exactly as
supplied; the plain-text marker line of a readable non-binary file uses
exactly this computation. -/
theorem rel_path_characterization :
    (∀ (cwd b p : Str), b ≠ [] →
        (strStartsWith (abspath cwd b ++ str "/") (abspath cwd p) = true →
          compute_rel_path cwd (some b) p = relpath cwd (abspath cwd p) (abspath cwd b))
        ∧ (strStartsWith (abspath cwd b ++ str "/") (abspath cwd p) = false →
          compute_rel_path cwd (some b) p = p))
    ∧ (∀ (cwd p : Str), compute_rel_path cwd none p = p)
    ∧ (∀ (cwd p : Str), compute_rel_path cwd (some []) p = p)
    ∧ (∀ (fs : Str → Option FileData) (cwd : Str) (base : Option Str) (p : Str)
        (fd : FileData), fs p = some fd → fd.probe_ok = true →
        (fd.bytes.take BINARY_CHECK_CHUNK_SIZE).contains 0 = false → fd.read_ok = true →
        (fileBlock fs (str "plaintext") false base cwd p).head? =
          some (str "--- File: " ++ compute_rel_path cwd base p ++ str " ---")) := by
  refine ⟨?_, fun _ _ => rfl, fun _ _ => rfl, ?_⟩
  · intro cwd b p hb
    have hkey : compute_rel_path cwd (some b) p =
        (match (if b = [] then (none : Option Str) else some (abspath cwd b)) with
         | some ab =>
           if strStartsWith (ab ++ str "/") (abspath cwd p) then
             relpath cwd (abspath cwd p) ab
           else p
         | none => p) := rfl
    rw [if_neg hb] at hkey
    have hkey2 : compute_rel_path cwd (some b) p =
        if strStartsWith (abspath cwd b ++ str "/") (abspath cwd p) = true then
          relpath cwd (abspath cwd p) (abspath cwd b)
        else p := hkey
    constructor
    · intro hpre
      rw [hkey2, if_pos hpre]
    · intro hpre
      rw [hkey2, if_neg (by simp [hpre])]
  · intro fs cwd base p fd hfs hprobe hnul hro
    have h0 : is_likely_binary_file fs p = is_likely_binary_data fd := by
      unfold is_likely_binary_file
      rw [hfs]
    have hbin : is_likely_binary_file fs p = false := by
      rw [h0]
      unfold is_likely_binary_data
      rw [if_pos hprobe]
      exact hnul
    unfold fileBlock
    rw [hbin]
    simp only [Bool.false_eq_true, if_false]
    simp only [hfs]
    rw [if_pos hro]
    simp

/-- Witness for C10 at concrete paths inside and outside the base
directory. -/
theorem rel_path_characterization_witness :
    compute_rel_path (str "/cwd") (some (str "/base")) (str "/base/sub/b.txt") =
      relpath (str "/cwd") (abspath (str "/cwd") (str "/base/sub/b.txt"))
        (abspath (str "/cwd") (str "/base")) ∧
    compute_rel_path (str "/cwd") (some (str "/base")) (str "/other/b.txt") =
      str "/other/b.txt" :=
  ⟨((rel_path_characterization.1 (str "/cwd") (str "/base") (str "/base/sub/b.txt")
      (by decide)).1 (by decide)),
   ((rel_path_characterization.1 (str "/cwd") (str "/base") (str "/other/b.txt")
      (by decide)).2 (by decide))⟩

theorem enumFrom_map {α β : Type} (f : α → β) :
    ∀ (l : List α) (i : Nat),
      (l.map f).enumFrom i = (l.enumFrom i).map fun p => (p.1, f p.2) := by
  intro l
  induction l with
  | nil => intro i; rfl
  | cons a rest ih =>
    intro i
    show (i, f a) :: (rest.map f).enumFrom (i + 1) =
      (i, f a) :: ((rest.enumFrom (i + 1)).map fun p => (p.1, f p.2))
    rw [ih]

theorem enum_map {α β : Type} (f : α → β) (l : List α) :
    (l.map f).enum = l.enum.map fun p => (p.1, f p.2) :=
  enumFrom_map f l 0

theorem flatMap_map_comp {α β γ : Type} (f : α → β) (g : β → List γ) :
    ∀ (l : List α), (l.map f).flatMap g = l.flatMap fun a => g (f a) := by
  intro l
  induction l with
  | nil => rfl
  | cons a rest ih => rw [List.map_cons, List.flatMap_cons, List.flatMap_cons, ih]

theorem renderLines_unfold :
    ∀ (nodes : List TreeNode) (pfx : Str),
      renderLines nodes pfx = nodes.enum.flatMap fun ie =>
        (pfx ++ (if ie.1 = nodes.length - 1 then str "└── " else str "├── ") ++ ie.2.name) ::
          (if ie.2.isDir then
            renderLines ie.2.children
              (pfx ++ (if ie.1 = nodes.length - 1 then str "    " else str "│   "))
          else []) := by
  intro nodes pfx
  cases nodes with
  | nil => rfl
  | cons n0 rest =>
    have h1 : 1 ≤ TreeNode.sizeNodes (n0 :: rest) := by rw [TreeNode.sizeNodes]; omega
    obtain ⟨m, hm⟩ : ∃ m, TreeNode.sizeNodes (n0 :: rest) = m + 1 :=
      ⟨TreeNode.sizeNodes (n0 :: rest) - 1, by omega⟩
    show renderLines_fuel (TreeNode.sizeNodes (n0 :: rest)) (n0 :: rest) pfx = _
    rw [hm, renderLines_fuel]
    refine flatMap_congr ?_
    intro a ha
    obtain ⟨i, nd⟩ := a
    have hmem : nd ∈ n0 :: rest := mem_of_mem_enum ha
    have hsz : TreeNode.sizeNodes nd.children ≤ m := by
      have h2 := TreeNode.size_le_sizeNodes_of_mem (n0 :: rest) nd hmem
      have h3 := TreeNode.sizeNodes_children_lt nd
      omega
    dsimp only
    by_cases hd : nd.isDir = true
    · rw [if_pos hd, if_pos hd]
      show _ :: renderLines_fuel m nd.children _ = _ :: renderLines nd.children _
      refine congrArg _ ?_
      show renderLines_fuel m nd.children _ = renderLines_fuel (TreeNode.sizeNodes nd.children) nd.children _
      exact renderLines_fuel_irrelevant m (TreeNode.sizeNodes nd.children) nd.children _ hsz
        (Nat.le_refl _)
    · rw [if_neg hd, if_neg hd]

theorem gen_eq_render_scan_fuel (isdir : Str → Bool) (ih0 : Bool) (rules : List Str) :
    ∀ (fuel : Nat) (t : FSTree) (path pfx : Str), FSTree.size t ≤ fuel →
      generate_project_tree_fuel isdir ih0 rules fuel t path pfx =
        renderLines (scanTreeNB_fuel isdir ih0 rules fuel t path) pfx := by
  intro fuel
  induction fuel with
  | zero =>
    intro t path pfx h
    exact absurd h (by have := FSTree.size_pos t; omega)
  | succ fuel ih =>
    intro t path pfx h
    cases t with
    | file fd => rfl
    | dir b children =>
      cases b with
      | false => rfl
      | true =>
        have hc : FSTree.sizeChildren children ≤ fuel := by
          rw [FSTree.size] at h; omega
        rw [generate_project_tree_fuel, scanTreeNB_fuel]
        dsimp only
        rw [← insertionSort_map (fun (e : Str × FSTree) => TreeNode.mk e.1 e.2.isDir
            (scanTreeNB_fuel isdir ih0 rules fuel e.2 (pyJoin path e.1)))
          (fun e1 e2 => entryKeyLE e1 e2 = true) (fun n1 n2 => nodeKeyLE n1 n2 = true)
          (fun a b => Iff.rfl)]
        rw [renderLines_unfold, enum_map, flatMap_map_comp]
        simp only [List.length_map]
        refine flatMap_congr ?_
        intro a ha
        obtain ⟨i, e⟩ := a
        have he3 : e ∈ children := by
          have he1 := mem_of_mem_enum ha
          have he2 := mem_insertionSort _ he1
          exact (List.mem_filter.mp he2).1
        have hsize : FSTree.size e.2 ≤ fuel := by
          have := FSTree.size_lt_sizeChildren_of_mem children e he3
          omega
        dsimp only [TreeNode.name, TreeNode.isDir, TreeNode.children]
        by_cases hd : e.2.isDir = true
        · rw [if_pos hd, if_pos hd]
          refine congrArg _ ?_
          exact ih e.2 (pyJoin path e.1) _ hsize
        · rw [if_neg hd, if_neg hd]

/-- C6: the source tree renderer refines the specification renderer:
for every filtered forest the specification renderer emits, per child,
one line of prefix, connector (the last sibling getting the closing
glyph), and name, recursing into directories with the prefix extended
by four spaces under a last sibling and by the bar glyph otherwise; and
the source `generate_project_tree` equals that renderer composed with
the specification scan of the snapshot, so the literal glyphs are
reproduced byte-exactly. -/
theorem tree_renderer_refinement :
    (∀ (nodes : List TreeNode) (pfx : Str),
      renderLines nodes pfx = nodes.enum.flatMap fun ie =>
        (pfx ++ (if ie.1 = nodes.length - 1 then str "└── " else str "├── ") ++ ie.2.name) ::
          (if ie.2.isDir then
            renderLines ie.2.children
              (pfx ++ (if ie.1 = nodes.length - 1 then str "    " else str "│   "))
          else []))
    ∧ (∀ (isdir : Str → Bool) (ih0 : Bool) (rules : List Str) (t : FSTree) (path pfx : Str),
      generate_project_tree isdir ih0 rules t path pfx =
        renderLines (scanTreeNB isdir ih0 rules t path) pfx) :=
  ⟨renderLines_unfold, fun isdir ih0 rules t path pfx =>
    gen_eq_render_scan_fuel isdir ih0 rules (FSTree.size t) t path pfx (Nat.le_refl _)⟩
